import Mathlib

/-!
Verification of the RLWE blind-signature core (cloudsupper/rlwe-bdhke).

This file shallowly embeds the C++ sources of the repository in Lean:
scalar modular arithmetic and the negacyclic NTT (src/unnamed/part_002,
header in src/tests/polynomial_test.cpp's companion ntt.h), the psi-table
generator (src/tools_ntt_root_finder.cpp, whose output header is baked
into the library), the Polynomial type (src/include/polynomial.h,
src/src/polynomial.cpp), the blind-signature layer
(src/unnamed/part_001 = include/rlwe.h, src/unnamed/part_003 = src/rlwe.cpp),
and the schoolbook reference multiplier from the repository's test
(src/unnamed/part_000).  SHA-256 itself is OpenSSL and not part of the
repository sources; it is modelled from the spec (FIPS 180-4 as cited in
spec section 4.6) and validated against the spec's canary digest.

Machine integers are modelled as Nat/Int.  All catalog moduli satisfy
q < 2^16 and every stored value manipulated by the NTT stays below q, so
the uint64 computations of the source are exact; where a definition relies
on this, its doc comment says so.  The int64 casts of Polynomial::mod are
modelled exactly via int64OfUInt64.
-/

namespace RLWE

/-! ## Scalar modular arithmetic (NTT statics, src/unnamed/part_002 and ntt.h) -/

/-- NTT::modAdd: branch-free conditional subtraction.  Exact for the
uint64 source whenever a + b < 2^64, in particular for a, b < q < 2^63. -/
def modAdd (a b m : Nat) : Nat :=
  let r := a + b
  if r ≥ m then r - m else r

/-- NTT::modSub: add m on underflow.  Exact for the uint64 source
whenever b ≤ a or a + m - b does not overflow; all uses have a, b < m. -/
def modSub (a b m : Nat) : Nat :=
  if a ≥ b then a - b else a + m - b

/-- NTT::modMul: plain product followed by reduction.  The source comments
that the 64-bit product is exact because every supported modulus has
q < 2^16; the embedding computes the exact product. -/
def modMul (a b m : Nat) : Nat := a * b % m

/-- Iteration of NTT::modPow's square-and-multiply loop (res, base, exp);
the structural fuel bounds the loop, which halves e each step, so fuel = e
always suffices. -/
def modPowAux (m : Nat) : Nat → Nat → Nat → Nat → Nat
  | 0, res, _, _ => res
  | f + 1, res, b, e =>
    if e = 0 then res
    else modPowAux m f (if e % 2 = 1 then modMul res b m else res) (modMul b b m) (e / 2)

/-- NTT::modPow (also the tool's modPow): square-and-multiply, res starts at 1. -/
def modPow (base e m : Nat) : Nat := modPowAux m e 1 base e

/-- Loop of NTT::modInverse (extended Euclid); r and new_r stay
non-negative, t and new_t are the int64 Bezout coefficients; new_r
strictly decreases, so the fuel never runs out at its initial value. -/
def egcdAux (m : Nat) : Nat → Int → Int → Nat → Nat → Option Nat
  | 0, t, _, r, newR =>
    if newR = 0 then
      if 1 < r then none else some (if t < 0 then t + (m : Int) else t).toNat
    else none
  | f + 1, t, newT, r, newR =>
    if newR = 0 then
      if 1 < r then none else some (if t < 0 then t + (m : Int) else t).toNat
    else egcdAux m f newT (t - ((r / newR : Nat) : Int) * newT) newR (r % newR)

/-- NTT::modInverse: none models the NoInverse exception. -/
def modInverse (a m : Nat) : Option Nat := egcdAux m (a % m + 1) 0 1 m (a % m)

/-- NTT::isPowerOfTwo: n && ((n & (n-1)) == 0). -/
def isPowerOfTwo (n : Nat) : Bool := n != 0 && (n &&& (n - 1)) == 0

/-! ## Psi tables (src/tools_ntt_root_finder.cpp; the generated header is
baked into the library and is not a runtime computation) -/

/-- Inner order check of the tool's findPsi: repeatedly halve tmp_k while
it is even and > 1, failing if any proper power of cand is 1; the
structural fuel (tk at the top call) always outlasts the halving. -/
def psiOrderAux (q cand : Nat) : Nat → Nat → Bool
  | 0, _ => true
  | f + 1, tk =>
    if tk % 2 = 0 ∧ 1 < tk then
      if modPow cand (tk / 2) q = 1 then false else psiOrderAux q cand f (tk / 2)
    else true

/-- The tool's order check entry point. -/
def psiOrderCheck (q cand tk : Nat) : Bool := psiOrderAux q cand tk tk

/-- Search loop of findPsi over candidate generators g = 2, 3, ...;
the fuel only bounds the g < q loop, matching the C++ for-loop. -/
def findPsiAux (q n : Nat) : Nat → Nat → Nat
  | 0, _ => 0
  | fuel + 1, g =>
    if g < q then
      let k := 2 * n
      let cand := modPow g ((q - 1) / k) q
      if modPow cand k q = 1 ∧ psiOrderCheck q cand k = true ∧ modPow cand (k / 2) q = q - 1
      then cand
      else findPsiAux q n fuel (g + 1)
    else 0

/-- The tool's findPsi(q, n): smallest candidate 2n-th root with
cand^n = q - 1; 0 on failure. -/
def findPsi (q n : Nat) : Nat := findPsiAux q n q 2

/-- ntt_tables::PsiTables: psi, its inverse, and the twist vectors
twist[i] = psi^(2i+1), twist_inv[i] = psi_inv^(2i+1). -/
structure PsiTables where
  psi : Nat
  psi_inv : Nat
  twist : Nat → Nat
  twist_inv : Nat → Nat

/-- Build the baked table for one (n, q) pair, exactly as the generator
tool emits it: psi from findPsi, inverse by the tool's extended Euclid,
twist entries by the tool's modPow. -/
def mkTables (n q : Nat) : PsiTables :=
  let psi := findPsi q n
  let psiInv := (modInverse psi q).getD 0
  { psi := psi
    psi_inv := psiInv
    twist := fun i => modPow psi (2 * i + 1) q
    twist_inv := fun i => modPow psiInv (2 * i + 1) q }

/-- ntt_tables::getPsiTables: the five (n, q) pairs the tool generates. -/
def getPsiTables (n q : Nat) : Option PsiTables :=
  if n = 8 ∧ q = 7681 then some (mkTables 8 7681)
  else if n = 32 ∧ q = 7681 then some (mkTables 32 7681)
  else if n = 256 ∧ q = 7681 then some (mkTables 256 7681)
  else if n = 512 ∧ q = 12289 then some (mkTables 512 12289)
  else if n = 1024 ∧ q = 18433 then some (mkTables 1024 18433)
  else none

/-! ## NTT (src/unnamed/part_002) -/

/-- The data of a successfully constructed NTT object (negacyclic only). -/
structure NTTCtx where
  n : Nat
  q : Nat
  omega : Nat
  omega_inv : Nat
  n_inv : Nat
  psi_powers : Nat → Nat
  psi_powers_inv : Nat → Nat

/-- NTT::NTT(n, q, negacyclic): none models the thrown
std::invalid_argument on any failed check. -/
def mkNTT (n q : Nat) (negacyclic : Bool) : Option NTTCtx :=
  if isPowerOfTwo n = false then none
  else if q < 2 then none
  else if negacyclic = false then none
  else if (q - 1) % (2 * n) ≠ 0 then none
  else
    match getPsiTables n q with
    | none => none
    | some tbl =>
      match modInverse (modMul tbl.psi tbl.psi q) q, modInverse n q with
      | some oi, some ni =>
        some ⟨n, q, modMul tbl.psi tbl.psi q, oi, ni, tbl.twist, tbl.twist_inv⟩
      | _, _ => none

/-- Inner while-loop of NTT::bitReverse: propagate the reversed-increment
carry from the top bit downwards, then set the first clear bit; the
structural fuel (bit at the top call) always outlasts the halving. -/
def revUpdAux : Nat → Nat → Nat → Nat
  | 0, j, bit => j ^^^ bit
  | f + 1, j, bit =>
    if j &&& bit ≠ 0 then revUpdAux f (j ^^^ bit) (bit / 2) else j ^^^ bit

/-- The reversed-counter increment of NTT::bitReverse. -/
def revUpd (j bit : Nat) : Nat := revUpdAux bit j bit

/-- std::swap(a[i], a[j]) on a coefficient vector. -/
def swapL (v : List Nat) (i j : Nat) : List Nat :=
  (v.set i (v.getD j 0)).set j (v.getD i 0)

/-- The i-loop of NTT::bitReverse with c iterations remaining, current
index i and reversed counter j. -/
def bitRevLoop (n : Nat) : Nat → Nat → Nat → List Nat → List Nat
  | 0, _, _, v => v
  | c + 1, i, j, v =>
    let j2 := revUpd j (n / 2)
    bitRevLoop n c (i + 1) j2 (if i < j2 then swapL v i j2 else v)

/-- NTT::bitReverse: i runs from 1 to n - 2 starting with j = 0. -/
def bitReverseL (n : Nat) (v : List Nat) : List Nat :=
  bitRevLoop n (n - 2) 1 0 v

/-- The wlen-squaring for-loop at the head of each stage of NTT::ntt:
square w while i < n, doubling i; fuel bounds the loop (i doubles from
len ≥ 2, so n iterations are always enough). -/
def sqChain (q n : Nat) : Nat → Nat → Nat → Nat
  | 0, _, w => w
  | f + 1, i, w => if i < n then sqChain q n f (2 * i) (modMul w w q) else w

/-- The j-loop of one butterfly block of NTT::ntt, with c iterations
remaining, current j and current twiddle w. -/
def innerJ (q wl p half : Nat) : Nat → Nat → Nat → List Nat → List Nat
  | 0, _, _, v => v
  | c + 1, j, w, v =>
    let u := v.getD (p + j) 0
    let x := modMul (v.getD (p + j + half) 0) w q
    innerJ q wl p half c (j + 1) (modMul w wl q)
      ((v.set (p + j) (modAdd u x q)).set (p + j + half) (modSub u x q))

/-- The i-loop over blocks of one stage of NTT::ntt: c blocks remaining,
current block start p, block length len, half = len / 2. -/
def blocksJ (q wl len half : Nat) : Nat → Nat → List Nat → List Nat
  | 0, _, v => v
  | c + 1, p, v => blocksJ q wl len half c (p + len) (innerJ q wl p half half 0 1 v)

/-- The while (len <= n) loop of NTT::ntt; fuel bounds the loop (len
doubles from 2, so fuel = n is always enough for the power-of-two sizes
accepted by the constructor). -/
def stagesLoop (q n w : Nat) : Nat → Nat → List Nat → List Nat
  | 0, _, v => v
  | f + 1, len, v =>
    if len ≤ n then
      stagesLoop q n w f (2 * len)
        (blocksJ q (sqChain q n n len w) len (len / 2) (n / len) 0 v)
    else v

/-- NTT::ntt(a, inverse): bit-reverse, run the staged butterflies with
omega or omega_inv, and scale by n_inv on the inverse direction. -/
def nttBody (ctx : NTTCtx) (inv : Bool) (v : List Nat) : List Nat :=
  let v1 := bitReverseL ctx.n v
  let w0 := if inv then ctx.omega_inv else ctx.omega
  let v2 := stagesLoop ctx.q ctx.n w0 ctx.n 2 v1
  if inv then v2.map (fun x => modMul x ctx.n_inv ctx.q) else v2

/-- NTT::forward on a coefficient vector of size n: apply the negacyclic
twist a_i <- a_i * psi^(2i+1), then the forward ntt. -/
def forwardV (ctx : NTTCtx) (v : List Nat) : List Nat :=
  nttBody ctx false
    ((List.range ctx.n).map (fun i => modMul (v.getD i 0) (ctx.psi_powers i) ctx.q))

/-- NTT::inverse on a coefficient vector of size n: inverse ntt (with
n_inv scaling), then undo the twist with psi^-(2i+1). -/
def inverseV (ctx : NTTCtx) (v : List Nat) : List Nat :=
  let u := nttBody ctx true v
  (List.range ctx.n).map (fun i => modMul (u.getD i 0) (ctx.psi_powers_inv i) ctx.q)

/-- NTT::forward on a vector; none models the size-mismatch exception. -/
def nttForwardL (ctx : NTTCtx) (l : List Nat) : Option (List Nat) :=
  if l.length ≠ ctx.n then none else some (forwardV ctx l)

/-- NTT::inverse on a vector; none models the size-mismatch exception. -/
def nttInverseL (ctx : NTTCtx) (l : List Nat) : Option (List Nat) :=
  if l.length ≠ ctx.n then none else some (inverseV ctx l)

/-! ## Polynomial (src/include/polynomial.h, src/src/polynomial.cpp) -/

/-- Element of Z_q[x]/(x^n + 1) as stored by the C++ class: coefficient
vector, ring dimension, modulus. -/
structure Polynomial where
  coeffs : List Nat
  ring_dim : Nat
  modulus : Nat
deriving DecidableEq, Repr

/-- Polynomial(n, q): the zero polynomial. -/
def Polynomial.zero (n q : Nat) : Polynomial := ⟨List.replicate n 0, n, q⟩

/-- Polynomial(coefficients, q): the vector constructor stores the input
vector as given; it performs no modular reduction (the header comment
says reduction happens only via setCoefficients). -/
def Polynomial.ofVec (cs : List Nat) (q : Nat) : Polynomial := ⟨cs, cs.length, q⟩

/-- static_cast<int64_t> of a uint64 value (two's-complement wrap). -/
def int64OfUInt64 (c : Nat) : Int :=
  if c < 2 ^ 63 then (c : Int) else (c : Int) - 2 ^ 64

/-- Polynomial::mod(x, m): truncated int64 remainder, plus m if negative. -/
def cppIntMod (x : Int) (m : Nat) : Nat :=
  (let r := x.tmod (m : Int); if r < 0 then r + (m : Int) else r).toNat

/-- Polynomial::setCoefficients: size check, then reduce each value with
Polynomial::mod (the value is first converted uint64 -> int64). -/
def Polynomial.setCoefficients (p : Polynomial) (cs : List Nat) : Option Polynomial :=
  if cs.length ≠ p.ring_dim then none
  else some ⟨cs.map (fun c => cppIntMod (int64OfUInt64 c) p.modulus), p.ring_dim, p.modulus⟩

/-- Polynomial::operator+: coefficient-wise sum mod q after the ring
checks; exact for the uint64 source whenever the two addends sum below
2^64, in particular for canonical coefficients and q ≤ 2^63. -/
def polyAdd (p o : Polynomial) : Option Polynomial :=
  if p.ring_dim = o.ring_dim ∧ p.modulus = o.modulus then
    some ⟨(List.range p.ring_dim).map
            (fun i => (p.coeffs.getD i 0 + o.coeffs.getD i 0) % p.modulus),
          p.ring_dim, p.modulus⟩
  else none

/-- Polynomial::operator-: coefficient-wise difference through the int64
casts and Polynomial::mod, after the ring checks. -/
def polySub (p o : Polynomial) : Option Polynomial :=
  if p.ring_dim = o.ring_dim ∧ p.modulus = o.modulus then
    some ⟨(List.range p.ring_dim).map
            (fun i => cppIntMod (int64OfUInt64 (p.coeffs.getD i 0) -
                                 int64OfUInt64 (o.coeffs.getD i 0)) p.modulus),
          p.ring_dim, p.modulus⟩
  else none

/-- Unary Polynomial::operator-: 0 stays 0, otherwise q - c (uint64
subtraction; exact for canonical c < q). -/
def polyNeg (p : Polynomial) : Polynomial :=
  ⟨(List.range p.ring_dim).map
      (fun i => let c := p.coeffs.getD i 0
                if c = 0 then 0 else p.modulus - c),
   p.ring_dim, p.modulus⟩

/-- Polynomial::operator*(uint64_t): scale each coefficient mod q (the
uint64 product is exact for canonical inputs at the catalog moduli). -/
def polyScalar (p : Polynomial) (s : Nat) : Polynomial :=
  ⟨(List.range p.ring_dim).map (fun i => p.coeffs.getD i 0 * s % p.modulus),
   p.ring_dim, p.modulus⟩

/-- Polynomial::polySignal: round each coefficient to the nearer of
0 and q / 2 by comparing the two cyclic distances, ties to 0. -/
def polySignal (p : Polynomial) : Polynomial :=
  let hm := p.modulus / 2
  ⟨(List.range p.ring_dim).map
      (fun i =>
        let c := p.coeffs.getD i 0
        let d0 := min c (p.modulus - c)
        let dh := min (if c ≥ hm then c - hm else hm - c)
                      (if c ≥ hm then p.modulus - c + hm else p.modulus - hm + c)
        if d0 ≤ dh then 0 else hm),
   p.ring_dim, p.modulus⟩

/-- Polynomial::operator*: ring checks, construct the NTT (none models the
thrown exception when the (n, q) pair has no tables), transform both
inputs, multiply pointwise, inverse-transform, and store the result
through setCoefficients exactly as the source does. -/
def polyMul (p o : Polynomial) : Option Polynomial :=
  if p.ring_dim = o.ring_dim ∧ p.modulus = o.modulus then
    (mkNTT p.ring_dim p.modulus true).map fun ctx =>
      let af := forwardV ctx p.coeffs
      let bf := forwardV ctx o.coeffs
      let res := inverseV ctx
        ((List.range p.ring_dim).map (fun i => af.getD i 0 * bf.getD i 0 % p.modulus))
      ⟨(List.range p.ring_dim).map
          (fun i => cppIntMod (int64OfUInt64 (res.getD i 0)) p.modulus),
       p.ring_dim, p.modulus⟩
  else none

/-! ## Schoolbook reference multiplier (src/unnamed/part_000, the test's
local lambda, same logic as the commented-out multiplySchoolbook) -/

/-- The 2n-1 term convolution accumulator temp of the schoolbook lambda. -/
def schoolbookTemp (ac bc : List Nat) (n q : Nat) : List Nat :=
  (List.range n).foldl
    (fun t i =>
      (List.range n).foldl
        (fun t2 j =>
          t2.set (i + j) ((t2.getD (i + j) 0 + ac.getD i 0 * bc.getD j 0 % q) % q))
        t)
    (List.replicate (2 * n) 0)

/-- The while (higher_degree < temp.size()) reduction of the schoolbook
lambda: c_i <- c_i - c_(i+kn) (mod q); the structural fuel (bound at the
top call) always outlasts the loop, whose step is n ≥ 1. -/
def sbReduceAux (q : Nat) (t : List Nat) (bound step : Nat) : Nat → Nat → Nat → Nat
  | 0, coeff, _ => coeff
  | f + 1, coeff, higher =>
    if higher < bound then
      sbReduceAux q t bound step f
        (cppIntMod ((coeff : Int) - (t.getD higher 0 : Int)) q) (higher + step)
    else coeff

/-- The schoolbook reduction loop entry point. -/
def sbReduce (q : Nat) (t : List Nat) (bound coeff higher step : Nat) : Nat :=
  sbReduceAux q t bound step bound coeff higher

/-- The test's schoolbook reference: negacyclic schoolbook product. -/
def schoolbookMul (a b : Polynomial) : Option Polynomial :=
  if a.ring_dim = b.ring_dim ∧ a.modulus = b.modulus then
    let n := a.ring_dim
    let q := a.modulus
    let t := schoolbookTemp a.coeffs b.coeffs n q
    some ⟨(List.range n).map (fun i => sbReduce q t (2 * n) (t.getD i 0) (i + n) n), n, q⟩
  else none

/-! ## SHA-256.  Modelled from the spec: the repository hashes with
OpenSSL's SHA-256 (sha256.h / sha256.cpp are thin EVP wrappers whose
implementation lives outside the sources); the algorithm below is FIPS
180-4 as referenced by spec sections 4.6 and 8 (canary S4). -/

/-- Modelled from the spec: 32-bit right rotation for SHA-256. -/
def rotr32 (x k : Nat) : Nat := ((x >>> k) ||| (x <<< (32 - k))) % 4294967296

/-- Modelled from the spec: the SHA-256 Ch function. -/
def shaCh (x y z : Nat) : Nat := (x &&& y) ^^^ ((x ^^^ 4294967295) &&& z)

/-- Modelled from the spec: the SHA-256 Maj function. -/
def shaMaj (x y z : Nat) : Nat := (x &&& y) ^^^ (x &&& z) ^^^ (y &&& z)

/-- Modelled from the spec: the SHA-256 big sigma-0. -/
def bigS0 (x : Nat) : Nat := rotr32 x 2 ^^^ rotr32 x 13 ^^^ rotr32 x 22

/-- Modelled from the spec: the SHA-256 big sigma-1. -/
def bigS1 (x : Nat) : Nat := rotr32 x 6 ^^^ rotr32 x 11 ^^^ rotr32 x 25

/-- Modelled from the spec: the SHA-256 small sigma-0. -/
def smallS0 (x : Nat) : Nat := rotr32 x 7 ^^^ rotr32 x 18 ^^^ (x >>> 3)

/-- Modelled from the spec: the SHA-256 small sigma-1. -/
def smallS1 (x : Nat) : Nat := rotr32 x 17 ^^^ rotr32 x 19 ^^^ (x >>> 10)

/-- Modelled from the spec: the 64 SHA-256 round constants. -/
def shaK : List Nat :=
  [1116352408, 1899447441, 3049323471, 3921009573, 961987163, 1508970993,
   2453635748, 2870763221, 3624381080, 310598401, 607225278, 1426881987,
   1925078388, 2162078206, 2614888103, 3248222580, 3835390401, 4022224774,
   264347078, 604807628, 770255983, 1249150122, 1555081692, 1996064986,
   2554220882, 2821834349, 2952996808, 3210313671, 3336571891, 3584528711,
   113926993, 338241895, 666307205, 773529912, 1294757372, 1396182291,
   1695183700, 1986661051, 2177026350, 2456956037, 2730485921, 2820302411,
   3259730800, 3345764771, 3516065817, 3600352804, 4094571909, 275423344,
   430227734, 506948616, 659060556, 883997877, 958139571, 1322822218,
   1537002063, 1747873779, 1955562222, 2024104815, 2227730452, 2361852424,
   2428436474, 2756734187, 3204031479, 3329325298]

/-- Modelled from the spec: the SHA-256 initial state. -/
def shaH0 : List Nat :=
  [1779033703, 3144134277, 1013904242, 2773480762,
   1359893119, 2600822924, 528734635, 1541459225]

/-- Big-endian byte serialisation of x on k bytes. -/
def beBytes (k x : Nat) : List Nat :=
  (List.range k).map (fun i => x >>> (8 * (k - 1 - i)) % 256)

/-- Modelled from the spec: SHA-256 padding (0x80, zeros, 64-bit length). -/
def shaPad (msg : List Nat) : List Nat :=
  let L := msg.length
  let zeros := (64 - (L + 9) % 64) % 64
  msg ++ [128] ++ List.replicate zeros 0 ++ beBytes 8 (8 * L)

/-- Big-endian 32-bit word i of a byte chunk. -/
def beWord (b : List Nat) (i : Nat) : Nat :=
  b.getD (4 * i) 0 * 16777216 + b.getD (4 * i + 1) 0 * 65536 +
    b.getD (4 * i + 2) 0 * 256 + b.getD (4 * i + 3) 0

/-- Modelled from the spec: the 64-word SHA-256 message schedule. -/
def shaSchedule (chunk : List Nat) : List Nat :=
  let w16 := (List.range 16).map (beWord chunk)
  (List.range 48).foldl
    (fun w i =>
      w ++ [(w.getD i 0 + smallS0 (w.getD (i + 1) 0) + w.getD (i + 9) 0 +
             smallS1 (w.getD (i + 14) 0)) % 4294967296])
    w16

/-- Modelled from the spec: one SHA-256 compression of a 64-byte chunk. -/
def shaCompress (st chunk : List Nat) : List Nat :=
  let w := shaSchedule chunk
  let res := (List.range 64).foldl
    (fun r i =>
      match r with
      | [a, b, c, d, e, f, g, h] =>
        let t1 := (h + bigS1 e + shaCh e f g + shaK.getD i 0 + w.getD i 0) % 4294967296
        let t2 := (bigS0 a + shaMaj a b c) % 4294967296
        [(t1 + t2) % 4294967296, a, b, c, (d + t1) % 4294967296, e, f, g]
      | other => other)
    st
  List.zipWith (fun x y => (x + y) % 4294967296) st res

/-- Split a byte list into 64-byte chunks (fuel-bounded, structural). -/
def chunksAux : Nat → List Nat → List (List Nat)
  | 0, _ => []
  | f + 1, l => if l = [] then [] else l.take 64 :: chunksAux f (l.drop 64)

/-- Split a byte list into 64-byte chunks. -/
def chunksOf64 (l : List Nat) : List (List Nat) := chunksAux l.length l

/-- Modelled from the spec: SHA-256 of a byte string, as bytes. -/
def sha256 (msg : List Nat) : List Nat :=
  let final := (chunksOf64 (shaPad msg)).foldl shaCompress shaH0
  final.foldr (fun wd acc => beBytes 4 wd ++ acc) []

/-! ## Blind-signature layer (src/unnamed/part_001 and part_003) -/

/-- The SecurityLevel enumeration of include/rlwe.h. -/
inductive SecurityLevel
  | TEST_TINY
  | TEST_SMALL
  | KYBER512
  | MODERATE
  | HIGH
deriving DecidableEq, Repr

/-- The RLWEParams record.  sigma is a C++ double; it is modelled by the
exact decimal rational (the double values 3.0, 3.2, 1.6 differ from these
rationals by at most 2^-52 relative error, which no claim depends on). -/
structure RLWEParams where
  n : Nat
  q : Nat
  sigma : ℚ
  name : String
  classical_bits : Int
  quantum_bits : Int
  is_secure : Bool
deriving DecidableEq, Repr

/-- RLWESignature::getParameterSet: the catalog baked into the switch. -/
def getParameterSet (level : SecurityLevel) : RLWEParams :=
  match level with
  | SecurityLevel.TEST_TINY => ⟨8, 7681, 3, "TEST_TINY (INSECURE)", 4, 2, false⟩
  | SecurityLevel.TEST_SMALL => ⟨32, 7681, 3, "TEST_SMALL (INSECURE)", 16, 8, false⟩
  | SecurityLevel.KYBER512 => ⟨256, 3329, 8 / 5, "KYBER512 (NIST Standard)", 128, 64, true⟩
  | SecurityLevel.MODERATE => ⟨512, 12289, 16 / 5, "MODERATE", 192, 96, true⟩
  | SecurityLevel.HIGH => ⟨1024, 16384, 16 / 5, "HIGH", 256, 128, true⟩

/-- popcount loop (the portable #else branch of validatePowerOfTwo; the
GNUC builtin __builtin_popcountll computes the same value); the
structural fuel (n at the top call) always outlasts the halving. -/
def popcountAux : Nat → Nat → Nat
  | 0, _ => 0
  | f + 1, n => if n = 0 then 0 else popcountAux f (n / 2) + n % 2

/-- Population count of n, as __builtin_popcountll. -/
def popcountll (n : Nat) : Nat := popcountAux n n

/-- validatePowerOfTwo of src/unnamed/part_003: the isPowerOfTwo bit
trick, then the popcount == 1 confirmation. -/
def validatePowerOfTwo (n : Nat) : Bool :=
  if isPowerOfTwo n = false then false else popcountll n == 1

/-- The state of an RLWESignature instance: parameters and key material. -/
structure SigState where
  ring_dim_n : Nat
  modulus : Nat
  gaussian_stddev : ℚ
  a : Polynomial
  b : Polynomial
  s : Polynomial
deriving Repr

/-- RLWESignature::RLWESignature(n, q, sigma): members are initialised
(sigma > 0 ? sigma : 3.2, zero key polynomials), then the constructor
throws (none) unless validatePowerOfTwo(n); validateSecurityParameters
only logs and never fails. -/
def mkRLWE (n q : Nat) (sigma : ℚ) : Option SigState :=
  if validatePowerOfTwo n = true then
    some ⟨n, q, if sigma > 0 then sigma else 16 / 5,
          Polynomial.zero n q, Polynomial.zero n q, Polynomial.zero n q⟩
  else none

/-- RLWESignature::RLWESignature(SecurityLevel): fields come from
getParameterSet; the same power-of-two check applies. -/
def mkRLWEFromLevel (level : SecurityLevel) : Option SigState :=
  let p := getParameterSet level
  if validatePowerOfTwo p.n = true then
    some ⟨p.n, p.q, p.sigma,
          Polynomial.zero p.n p.q, Polynomial.zero p.n p.q, Polynomial.zero p.n p.q⟩
  else none

/-- RLWESignature::getParameters.  The double products n * 0.5, n * 0.25,
n * 0.6, n * 0.3 truncated to int equal the rational floors below for
every ring dimension n < 2^49 (3n/5 and 3n/10 are never integers when n
is a power of two, and the double rounding error stays below 1/10). -/
def getParameters (st : SigState) : RLWEParams :=
  let n := st.ring_dim_n
  if n < 128 then
    ⟨n, st.modulus, st.gaussian_stddev, "Custom", (n / 2 : Nat), (n / 4 : Nat), false⟩
  else if n < 256 then
    ⟨n, st.modulus, st.gaussian_stddev, "Custom", 80, 40, false⟩
  else
    ⟨n, st.modulus, st.gaussian_stddev, "Custom",
     (3 * n / 5 : Nat), (3 * n / 10 : Nat), decide (256 ≤ n)⟩

/-- Little-endian byte serialisation of x on k bytes: the hash counter is
written in host byte order (spec section 4.6), little-endian on the
reference host. -/
def leBytes (k x : Nat) : List Nat :=
  (List.range k).map (fun i => x >>> (8 * i) % 256)

/-- Expand digest bytes to coefficients, most significant bit first:
bit 1 becomes q / 2, bit 0 becomes 0. -/
def bitsOfBytesQ (q : Nat) (bytes : List Nat) : List Nat :=
  bytes.foldr
    (fun byte acc =>
      ((List.range 8).map (fun b => if (byte >>> (7 - b)) &&& 1 = 1 then q / 2 else 0)) ++ acc)
    []

/-- The while (coeff_idx < ring_dim_n) loop of hashToPolynomial: one
SHA-256 block per counter value, each contributing up to 256
coefficients; the fuel (initially n) bounds the loop, which consumes at
least one coefficient per iteration. -/
def hashBlocks (q : Nat) (message : List Nat) : Nat → Nat → Nat → List Nat
  | 0, _, _ => []
  | fuel + 1, rem, ctr =>
    if rem = 0 then []
    else
      let digest := sha256 (leBytes 4 ctr ++ message)
      let cs := (bitsOfBytesQ q digest).take rem
      cs ++ hashBlocks q message fuel (rem - cs.length) (ctr + 1)

/-- RLWESignature::hashToPolynomial: counter (4 bytes, host order)
prepended to the message, SHA-256 expanded to n coefficients in
{0, q / 2}. -/
def hashToPolynomial (n q : Nat) (message : List Nat) : Polynomial :=
  ⟨hashBlocks q message n n 0, n, q⟩

/-- RLWESignature::verify: hash the message, multiply by the stored
secret, compare the two polySignal vectors index by index (the loop
breaks at the first mismatch, which is the same boolean as all-equal);
none models the exception that s * z would throw for an unsupported
ring.  Verification mismatch itself is a boolean, not an error. -/
def verify (st : SigState) (message : List Nat) (signature : Polynomial) : Option Bool :=
  let z := hashToPolynomial st.ring_dim_n st.modulus message
  (polyMul st.s z).map fun expected =>
    let actualS := (polySignal signature).coeffs
    let expectedS := (polySignal expected).coeffs
    (List.range actualS.length).all (fun i => actualS.getD i 0 == expectedS.getD i 0)

/-- RLWESignature::computeSignature(C, r, A) = C - r * A. -/
def computeSignature (blindSignature blindingFactor publicKey : Polynomial) :
    Option Polynomial :=
  (polyMul blindingFactor publicKey).bind (fun t => polySub blindSignature t)


/-! ## Specification-side definitions used by the theorems -/

/-- Reversal of the low m bits of v (mathematical specification of the
bit-reversal permutation; the low bit of v becomes the top bit). -/
def bitRev : Nat → Nat → Nat
  | 0, _ => 0
  | m + 1, v => v % 2 * 2 ^ m + bitRev m (v / 2)

/-- The discrete Fourier transform of length n with root w over ZMod q,
of the first n entries of x, evaluated at frequency t. -/
def dftZ (q n : Nat) (w : ZMod q) (x : Nat → ZMod q) (t : Nat) : ZMod q :=
  ∑ j ∈ Finset.range n, x j * w ^ (j * t)

/-- A coefficient vector viewed over ZMod q. -/
def zv (q : Nat) (l : List Nat) : Nat → ZMod q := fun i => (l.getD i 0 : ZMod q)

/-- The negacyclic twist of a vector over ZMod q, using the baked
psi_powers table of a context. -/
def twZ (q : Nat) (tw : Nat → Nat) (x : Nat → ZMod q) : Nat → ZMod q :=
  fun i => x i * (tw i : ZMod q)

/-- The forward map the NTT pipeline realises over ZMod q: twist then DFT. -/
def phiZ (ctx : NTTCtx) (x : Nat → ZMod ctx.q) : Nat → ZMod ctx.q :=
  dftZ ctx.q ctx.n ((ctx.omega : ZMod ctx.q)) (twZ ctx.q ctx.psi_powers x)

/-- The properties of a well-formed supported NTT context: a power-of-two
size below a prime modulus, omega of exact order n with omega^(n/2) = -1,
correct scalar inverses, and twist tables that are bounded pointwise
inverses of each other. -/
structure GoodCtx (ctx : NTTCtx) (k : Nat) : Prop where
  hn : ctx.n = 2 ^ k
  hk : 1 ≤ k
  hq2 : 2 < ctx.q
  hprime : ctx.q.Prime
  homega_lt : ctx.omega < ctx.q
  hoinv_lt : ctx.omega_inv < ctx.q
  hninv_lt : ctx.n_inv < ctx.q
  homega_half : ((ctx.omega : ZMod ctx.q)) ^ (2 ^ (k - 1)) = -1
  hoi : (ctx.omega * ctx.omega_inv) % ctx.q = 1
  hni : (ctx.n * ctx.n_inv) % ctx.q = 1
  htw_lt : ∀ i, ctx.psi_powers i < ctx.q
  htwi_lt : ∀ i, ctx.psi_powers_inv i < ctx.q
  htw : ∀ i, (ctx.psi_powers i * ctx.psi_powers_inv i) % ctx.q = 1

/-- The running twiddle factor of the butterfly j-loop: w after t
iterations of w = modMul(w, wlen, q), starting from 1. -/
def wpow (q wl : Nat) : Nat → Nat
  | 0 => 1
  | t + 1 => modMul (wpow q wl t) wl q

/-- The supported (n, q) pairs: exactly those with baked psi tables. -/
def supportedPair (n q : Nat) : Prop := (getPsiTables n q).isSome = true

/-- The magnitude of a residue interpreted as a signed value centered at
zero: min(x, q - x). -/
def centeredAbs (q x : Nat) : Nat := min x (q - x)

/-- The cyclic distance between two residues of Z_q. -/
def cycDist (q a b : Nat) : Nat :=
  min (max a b - min a b) (q - (max a b - min a b))

/-- Canonical well-formedness of an embedded polynomial value: consistent
dimension and length, and all stored coefficients in [0, q). -/
def Canon (p : Polynomial) (n q : Nat) : Prop :=
  p.ring_dim = n ∧ p.modulus = q ∧ p.coeffs.length = n ∧
    ∀ i, i < n → p.coeffs.getD i 0 < q

/-! ## Helper lemmas: list access and scalar arithmetic -/

theorem getD_set_self {l : List Nat} {i x : Nat} (h : i < l.length) :
    (l.set i x).getD i 0 = x := by
  rw [List.getD_eq_getElem?_getD, List.getElem?_set_eq_of_lt _ h]; rfl

theorem getD_set_other {l : List Nat} {i j x : Nat} (h : i ≠ j) :
    (l.set i x).getD j 0 = l.getD j 0 := by
  rw [List.getD_eq_getElem?_getD, List.getElem?_set_ne h, List.getD_eq_getElem?_getD]

theorem getD_rangeMap {n i : Nat} {f : Nat → Nat} (h : i < n) :
    ((List.range n).map f).getD i 0 = f i := by
  rw [List.getD_eq_getElem?_getD, List.getElem?_map, List.getElem?_range h]; rfl

theorem getD_of_len_le {l : List Nat} {i : Nat} (h : l.length ≤ i) :
    l.getD i 0 = 0 := by
  rw [List.getD_eq_getElem?_getD, List.getElem?_eq_none (by simpa using h)]; rfl

theorem modAdd_lt {a b m : Nat} (ha : a < m) (hb : b < m) : modAdd a b m < m := by
  unfold modAdd; dsimp only; split <;> omega

theorem modSub_lt {a b m : Nat} (ha : a < m) (hb : b < m) : modSub a b m < m := by
  unfold modSub; split <;> omega

theorem modMul_lt {a b m : Nat} (hm : 0 < m) : modMul a b m < m :=
  Nat.mod_lt _ hm

theorem cast_modAdd (m : Nat) (a b : Nat) :
    ((modAdd a b m : Nat) : ZMod m) = (a : ZMod m) + b := by
  unfold modAdd; dsimp only; split
  · push_cast [Nat.cast_sub (by omega : m ≤ a + b)]
    simp [ZMod.natCast_self]
  · push_cast; ring

theorem cast_modSub (m : Nat) {a b : Nat} (hb : b ≤ a + m) :
    ((modSub a b m : Nat) : ZMod m) = (a : ZMod m) - b := by
  unfold modSub; split
  · push_cast [Nat.cast_sub (by omega : b ≤ a)]; ring
  · push_cast [Nat.cast_sub hb]
    simp [ZMod.natCast_self]

theorem cast_modMul (m : Nat) (a b : Nat) :
    ((modMul a b m : Nat) : ZMod m) = (a : ZMod m) * b := by
  unfold modMul
  rw [ZMod.natCast_mod]; push_cast; ring

theorem modPowAux_lt {m : Nat} (hm : 2 ≤ m) :
    ∀ f e res b, res < m → modPowAux m f res b e < m := by
  intro f
  induction f with
  | zero => intro e res b hres; simpa [modPowAux] using hres
  | succ f ih =>
    intro e res b hres
    rw [modPowAux]
    split
    · exact hres
    · refine ih _ _ _ ?_
      split
      · exact modMul_lt (by omega)
      · exact hres

theorem modPow_lt {m : Nat} (hm : 2 ≤ m) (b e : Nat) : modPow b e m < m :=
  modPowAux_lt hm e e 1 b (by omega)

theorem modPowAux_cast {m : Nat} :
    ∀ f e res b, e ≤ f →
      ((modPowAux m f res b e : Nat) : ZMod m) = (res : ZMod m) * (b : ZMod m) ^ e := by
  intro f
  induction f with
  | zero =>
    intro e res b he
    interval_cases e
    simp [modPowAux]
  | succ f ih =>
    intro e res b he
    by_cases h0 : e = 0
    · subst h0; simp [modPowAux]
    · rw [modPowAux, if_neg h0, ih (e / 2) _ _ (by omega)]
      by_cases hpar : e % 2 = 1
      · rw [if_pos hpar, cast_modMul, cast_modMul]
        calc (res : ZMod m) * b * ((b : ZMod m) * b) ^ (e / 2)
            = res * ((b : ZMod m) ^ (2 * (e / 2) + 1)) := by
              rw [← pow_two, ← pow_mul]; ring
          _ = res * (b : ZMod m) ^ e := by rw [show 2 * (e / 2) + 1 = e by omega]
      · rw [if_neg hpar, cast_modMul]
        calc (res : ZMod m) * ((b : ZMod m) * b) ^ (e / 2)
            = res * ((b : ZMod m) ^ (2 * (e / 2))) := by rw [← pow_two, ← pow_mul]
          _ = res * (b : ZMod m) ^ e := by rw [show 2 * (e / 2) = e by omega]

theorem cast_modPow {m : Nat} (b e : Nat) :
    ((modPow b e m : Nat) : ZMod m) = (b : ZMod m) ^ e := by
  rw [modPow, modPowAux_cast e e 1 b le_rfl, Nat.cast_one, one_mul]

/-! ## Bit manipulation helpers and the bit-reversal permutation -/

theorem and_two_pow_of_lt {a m : Nat} (h : a < 2 ^ m) : a &&& 2 ^ m = 0 := by
  rw [Nat.and_two_pow, Nat.testBit_lt_two_pow h]; simp

theorem add_two_pow_and {a m : Nat} (h : a < 2 ^ m) : (a + 2 ^ m) &&& 2 ^ m = 2 ^ m := by
  rw [Nat.and_two_pow, show a + 2 ^ m = 2 ^ m + a by ring,
    Nat.testBit_two_pow_add_eq, Nat.testBit_lt_two_pow h]
  simp

theorem xor_two_pow_of_lt {a m : Nat} (h : a < 2 ^ m) : a ^^^ 2 ^ m = a + 2 ^ m := by
  apply Nat.eq_of_testBit_eq
  intro i
  rcases lt_trichotomy i m with hi | hi | hi
  · rw [Nat.testBit_xor, Nat.testBit_two_pow_of_ne (by omega),
      show a + 2 ^ m = 2 ^ m + a by ring, Nat.testBit_two_pow_add_gt hi]
    simp
  · subst hi
    rw [Nat.testBit_xor, Nat.testBit_two_pow_self, Nat.testBit_lt_two_pow h,
      show a + 2 ^ i = 2 ^ i + a by ring, Nat.testBit_two_pow_add_eq,
      Nat.testBit_lt_two_pow h]
    rfl
  · rw [Nat.testBit_xor, Nat.testBit_two_pow_of_ne (by omega),
      Nat.testBit_lt_two_pow
        (lt_of_lt_of_le h (Nat.pow_le_pow_right (by norm_num) (by omega))),
      Nat.testBit_lt_two_pow
        (by calc a + 2 ^ m < 2 ^ m + 2 ^ m := by omega
              _ = 2 ^ (m + 1) := by ring
              _ ≤ 2 ^ i := Nat.pow_le_pow_right (by norm_num) (by omega))]
    rfl

theorem add_two_pow_xor {a m : Nat} (h : a < 2 ^ m) : (a + 2 ^ m) ^^^ 2 ^ m = a := by
  rw [← xor_two_pow_of_lt h, Nat.xor_assoc, Nat.xor_self, Nat.xor_zero]

theorem bitRev_lt : ∀ m v, bitRev m v < 2 ^ m := by
  intro m
  induction m with
  | zero => intro v; simp [bitRev]
  | succ m ih =>
    intro v
    have := ih (v / 2)
    have h2 : v % 2 ≤ 1 := by omega
    calc bitRev (m + 1) v = v % 2 * 2 ^ m + bitRev m (v / 2) := rfl
      _ < 2 ^ (m + 1) := by
          have : v % 2 * 2 ^ m ≤ 2 ^ m := by
            calc v % 2 * 2 ^ m ≤ 1 * 2 ^ m := Nat.mul_le_mul_right _ h2
              _ = 2 ^ m := one_mul _
          have hp : (0:Nat) < 2 ^ m := Nat.pos_pow_of_pos m (by norm_num)
          calc v % 2 * 2 ^ m + bitRev m (v / 2) < v % 2 * 2 ^ m + 2 ^ m := by omega
            _ ≤ 2 ^ m + 2 ^ m := by omega
            _ = 2 ^ (m + 1) := by ring

theorem bitRev_zero_val : ∀ m, bitRev m 0 = 0 := by
  intro m
  induction m with
  | zero => rfl
  | succ m ih => simp [bitRev, ih]

theorem bitRev_testBit : ∀ m v i, i < m → (bitRev m v).testBit i = v.testBit (m - 1 - i) := by
  intro m
  induction m with
  | zero => omega
  | succ m ih =>
    intro v i hi
    have hr : bitRev m (v / 2) < 2 ^ m := bitRev_lt m (v / 2)
    have hrev : bitRev (m + 1) v = v % 2 * 2 ^ m + bitRev m (v / 2) := rfl
    rcases Nat.lt_or_ge i m with him | him
    · rw [hrev]
      have : (v % 2 * 2 ^ m + bitRev m (v / 2)).testBit i = (bitRev m (v / 2)).testBit i := by
        rcases Nat.mod_two_eq_zero_or_one v with hv | hv
        · rw [hv, zero_mul, zero_add]
        · rw [hv, one_mul, Nat.testBit_two_pow_add_gt him]
      rw [this, ih (v / 2) i him, Nat.testBit_div_two]
      congr 1
      omega
    · have hieq : i = m := by omega
      subst hieq
      rw [hrev]
      rcases Nat.mod_two_eq_zero_or_one v with hv | hv
      · rw [hv, zero_mul, zero_add, Nat.testBit_lt_two_pow hr,
          show i + 1 - 1 - i = 0 by omega, Nat.testBit_zero]
        simp [hv]
      · rw [hv, one_mul, Nat.testBit_two_pow_add_eq, Nat.testBit_lt_two_pow hr,
          show i + 1 - 1 - i = 0 by omega, Nat.testBit_zero]
        simp [hv]

theorem bitRev_bitRev {m v : Nat} (h : v < 2 ^ m) : bitRev m (bitRev m v) = v := by
  apply Nat.eq_of_testBit_eq
  intro i
  rcases Nat.lt_or_ge i m with hi | hi
  · rw [bitRev_testBit m _ i hi, bitRev_testBit m v (m - 1 - i) (by omega),
      show m - 1 - (m - 1 - i) = i by omega]
  · rw [Nat.testBit_lt_two_pow (lt_of_lt_of_le (bitRev_lt m _) (Nat.pow_le_pow_right (by norm_num) hi)),
      Nat.testBit_lt_two_pow (lt_of_lt_of_le h (Nat.pow_le_pow_right (by norm_num) hi))]

theorem bitRev_inj {m a b : Nat} (ha : a < 2 ^ m) (hb : b < 2 ^ m)
    (h : bitRev m a = bitRev m b) : a = b := by
  have := congrArg (bitRev m) h
  rwa [bitRev_bitRev ha, bitRev_bitRev hb] at this

theorem revUpdAux_bitRev :
    ∀ k i f, 1 ≤ k → i + 1 < 2 ^ k → k ≤ f + 1 →
      revUpdAux f (bitRev k i) (2 ^ (k - 1)) = bitRev k (i + 1) := by
  intro k
  induction k with
  | zero => omega
  | succ k ih =>
    intro i f hk1 hi hf
    have hr : bitRev k (i / 2) < 2 ^ k := bitRev_lt k (i / 2)
    have hrev : bitRev (k + 1) i = i % 2 * 2 ^ k + bitRev k (i / 2) := rfl
    have hpow : 2 ^ (k + 1 - 1) = 2 ^ k := by norm_num
    rcases Nat.mod_two_eq_zero_or_one i with hpar | hpar
    · -- i even: the top bit of the reversed counter is clear; set it.
      have hj : bitRev (k + 1) i = bitRev k (i / 2) := by
        rw [hrev, hpar, zero_mul, zero_add]
      have hand : bitRev (k + 1) i &&& 2 ^ k = 0 := by
        rw [hj]; exact and_two_pow_of_lt hr
      have hxor : bitRev (k + 1) i ^^^ 2 ^ k = bitRev k (i / 2) + 2 ^ k := by
        rw [hj]; exact xor_two_pow_of_lt hr
      have htgt : bitRev (k + 1) (i + 1) = bitRev k (i / 2) + 2 ^ k := by
        have h1 : (i + 1) % 2 = 1 := by omega
        have h2 : (i + 1) / 2 = i / 2 := by omega
        show (i + 1) % 2 * 2 ^ k + bitRev k ((i + 1) / 2) = _
        rw [h1, h2, one_mul]; ring
      rw [hpow]
      cases f with
      | zero => rw [revUpdAux, hxor, htgt]
      | succ f =>
        rw [revUpdAux, if_neg (by rw [hand]; simp), hxor, htgt]
    · -- i odd: clear the top bit and carry into the low k bits.
      have hj : bitRev (k + 1) i = bitRev k (i / 2) + 2 ^ k := by
        rw [hrev, hpar, one_mul]; ring
      have hand : bitRev (k + 1) i &&& 2 ^ k = 2 ^ k := by
        rw [hj]; exact add_two_pow_and hr
      have hxor : bitRev (k + 1) i ^^^ 2 ^ k = bitRev k (i / 2) := by
        rw [hj]; exact add_two_pow_xor hr
      have hk : 1 ≤ k := by
        by_contra h
        have hk0 : k = 0 := by omega
        subst hk0
        norm_num at hi
        omega
      have hfs : ∃ f2, f = f2 + 1 := by
        refine ⟨f - 1, ?_⟩
        omega
      obtain ⟨f2, rfl⟩ := hfs
      rw [hpow, revUpdAux, if_pos (by rw [hand]; positivity), hxor,
        show 2 ^ k / 2 = 2 ^ (k - 1) by
          have hkk : 2 ^ k = 2 ^ (k - 1) * 2 := by
            rw [← pow_succ]
            congr 1
            omega
          omega]
      have hhalf : i / 2 + 1 < 2 ^ k := by
        have : i + 1 < 2 ^ (k + 1) := hi
        rw [pow_succ] at this
        omega
      rw [ih (i / 2) f2 hk hhalf (by omega)]
      have h1 : (i + 1) % 2 = 0 := by omega
      have h2 : (i + 1) / 2 = i / 2 + 1 := by omega
      show bitRev k (i / 2 + 1) = (i + 1) % 2 * 2 ^ k + bitRev k ((i + 1) / 2)
      rw [h1, h2, zero_mul, zero_add]

theorem revUpd_bitRev {k i : Nat} (hk : 1 ≤ k) (hi : i + 1 < 2 ^ k) :
    revUpd (bitRev k i) (2 ^ (k - 1)) = bitRev k (i + 1) := by
  rw [revUpd]
  have h2 : k - 1 < 2 ^ (k - 1) := Nat.lt_two_pow _
  exact revUpdAux_bitRev k i (2 ^ (k - 1)) hk hi (by omega)

theorem bitRev_ones : ∀ k, bitRev k (2 ^ k - 1) = 2 ^ k - 1 := by
  intro k
  induction k with
  | zero => rfl
  | succ k ih =>
    have h2 : (0:Nat) < 2 ^ k := Nat.pos_pow_of_pos k (by norm_num)
    have hmod : (2 ^ (k + 1) - 1) % 2 = 1 := by
      rw [pow_succ]; omega
    have hdiv : (2 ^ (k + 1) - 1) / 2 = 2 ^ k - 1 := by
      rw [pow_succ]; omega
    show (2 ^ (k + 1) - 1) % 2 * 2 ^ k + bitRev k ((2 ^ (k + 1) - 1) / 2) = 2 ^ (k + 1) - 1
    rw [hmod, hdiv, ih, one_mul, pow_succ]
    omega

theorem swapL_length (v : List Nat) (i j : Nat) : (swapL v i j).length = v.length := by
  simp [swapL]

theorem swapL_getD {v : List Nat} {i j : Nat} (hi : i < v.length) (hj : j < v.length)
    (t : Nat) :
    (swapL v i j).getD t 0 =
      if t = j then v.getD i 0 else if t = i then v.getD j 0 else v.getD t 0 := by
  unfold swapL
  by_cases htj : t = j
  · subst htj
    rw [if_pos rfl, getD_set_self (by simpa using hj)]
  · rw [if_neg htj, getD_set_other (fun h => htj h.symm)]
    by_cases hti : t = i
    · subst hti
      rw [if_pos rfl, getD_set_self hi]
    · rw [if_neg hti, getD_set_other (fun h => hti h.symm)]

theorem bitRevLoop_length (n : Nat) :
    ∀ c i j v, (bitRevLoop n c i j v : List Nat).length = v.length := by
  intro c
  induction c with
  | zero => intro i j v; rfl
  | succ c ih =>
    intro i j v
    rw [bitRevLoop, ih]
    split <;> simp [swapL_length]

theorem bitRevLoop_inv {k n : Nat} (hn : n = 2 ^ k) (hk : 1 ≤ k) (v : List Nat)
    (hvlen : v.length = n) :
    ∀ c i0 b, c + i0 = n - 1 → 1 ≤ i0 → b.length = n →
      (∀ t, t < n →
        b.getD t 0 =
          if t ≤ i0 - 1 ∨ (bitRev k t ≤ i0 - 1 ∧ bitRev k t < t) then v.getD (bitRev k t) 0
          else v.getD t 0) →
      ∀ t, t < n → (bitRevLoop n c i0 (bitRev k (i0 - 1)) b).getD t 0 = v.getD (bitRev k t) 0 := by
  intro c
  induction c with
  | zero =>
    intro i0 b hc hi0 hblen hbinv t ht
    rw [bitRevLoop, hbinv t ht]
    by_cases htop : t = n - 1
    · subst htop
      have : bitRev k (n - 1) = n - 1 := by rw [hn]; exact bitRev_ones k
      rw [this]
      split <;> rfl
    · rw [if_pos (Or.inl (by omega))]
  | succ c ih =>
    intro i0 b hc hi0 hblen hbinv t ht
    have hnpos : 2 ≤ n := by
      rw [hn]
      calc 2 = 2 ^ 1 := rfl
        _ ≤ 2 ^ k := Nat.pow_le_pow_right (by norm_num) hk
    have hi0lt : i0 < n := by omega
    have hhalf : n / 2 = 2 ^ (k - 1) := by
      have hkk : n = 2 ^ (k - 1) * 2 := by
        rw [hn, ← pow_succ]
        congr 1
        omega
      omega
    have hj2 : revUpd (bitRev k (i0 - 1)) (n / 2) = bitRev k i0 := by
      rw [hhalf]
      have := revUpd_bitRev hk (show i0 - 1 + 1 < 2 ^ k by omega)
      rwa [show i0 - 1 + 1 = i0 by omega] at this
    set r := bitRev k i0 with hr
    have hrlt : r < n := by rw [hn, hr]; exact bitRev_lt k i0
    have hrr : bitRev k r = i0 := by
      rw [hr, bitRev_bitRev (by rw [← hn]; exact hi0lt)]
    have hstep : bitRevLoop n (c + 1) i0 (bitRev k (i0 - 1)) b =
        bitRevLoop n c (i0 + 1) r (if i0 < r then swapL b i0 r else b) := by
      rw [bitRevLoop]
      simp only [hj2]
    rw [hstep]
    have hnext : bitRevLoop n c (i0 + 1) r (if i0 < r then swapL b i0 r else b) =
        bitRevLoop n c (i0 + 1) (bitRev k (i0 + 1 - 1))
          (if i0 < r then swapL b i0 r else b) := by
      rw [show i0 + 1 - 1 = i0 by omega, hr]
    rw [hnext]
    refine ih (i0 + 1) _ (by omega) (by omega) ?_ ?_ t ht
    · split
      · rw [swapL_length]; exact hblen
      · exact hblen
    · intro u hu
      rw [show i0 + 1 - 1 = i0 by omega]
      have hbru2 : bitRev k u = i0 → u = r := by
        intro hfalse
        rw [hr, ← hfalse, bitRev_bitRev (by rw [← hn]; exact hu)]
      by_cases hswap : i0 < r
      · rw [if_pos hswap, swapL_getD (by omega) (by omega)]
        by_cases hur : u = r
        · subst hur
          rw [if_pos rfl, hbinv i0 hi0lt, ← hr, if_neg (by omega), hrr,
            if_pos (Or.inr ⟨le_rfl, hswap⟩)]
        · rw [if_neg hur]
          by_cases hui : u = i0
          · rw [if_pos hui, hbinv r hrlt, hrr, hui, ← hr, if_neg (by omega),
              if_pos (Or.inl le_rfl)]
          · rw [if_neg hui, hbinv u hu]
            have hbne : bitRev k u ≠ i0 := fun hf => hur (hbru2 hf)
            by_cases hcond : u ≤ i0 - 1 ∨ (bitRev k u ≤ i0 - 1 ∧ bitRev k u < u)
            · rw [if_pos hcond, if_pos ?_]
              rcases hcond with h | h
              · exact Or.inl (by omega)
              · exact Or.inr ⟨by omega, h.2⟩
            · rw [if_neg hcond, if_neg ?_]
              push_neg at hcond ⊢
              exact ⟨by omega, fun hle => hcond.2 (by omega)⟩
      · rw [if_neg hswap]
        push_neg at hswap
        rw [hbinv u hu]
        by_cases hui : u = i0
        · rw [hui, ← hr]
          by_cases hri : r = i0
          · rw [if_neg (by omega), if_pos (Or.inl (le_refl i0)), hri]
          · rw [if_pos (show i0 ≤ i0 - 1 ∨ r ≤ i0 - 1 ∧ r < i0 from Or.inr ⟨by omega, by omega⟩),
              if_pos (show i0 ≤ i0 ∨ r ≤ i0 ∧ r < i0 from Or.inl (le_refl i0))]
        · by_cases hur : u = r
          · rw [if_pos (Or.inl (by omega)), if_pos (Or.inl (by omega))]
          · have hbne : bitRev k u ≠ i0 := fun hf => hur (hbru2 hf)
            by_cases hcond : u ≤ i0 - 1 ∨ (bitRev k u ≤ i0 - 1 ∧ bitRev k u < u)
            · rw [if_pos hcond, if_pos ?_]
              rcases hcond with h | h
              · exact Or.inl (by omega)
              · exact Or.inr ⟨by omega, h.2⟩
            · rw [if_neg hcond, if_neg ?_]
              push_neg at hcond ⊢
              exact ⟨by omega, fun hle => hcond.2 (by omega)⟩

theorem bitReverseL_getD {k n : Nat} (hn : n = 2 ^ k) (hk : 1 ≤ k) (v : List Nat)
    (hvlen : v.length = n) :
    ∀ t, t < n → (bitReverseL n v).getD t 0 = v.getD (bitRev k t) 0 := by
  intro t ht
  have hnpos : 2 ≤ n := by
    rw [hn]
    calc 2 = 2 ^ 1 := rfl
      _ ≤ 2 ^ k := Nat.pow_le_pow_right (by norm_num) hk
  have h0 : bitRev k 0 = 0 := bitRev_zero_val k
  have hmain := bitRevLoop_inv hn hk v hvlen (n - 2) 1 v (by omega) (by omega) hvlen ?_ t ht
  · rw [show bitRev k (1 - 1) = 0 by rw [show (1:Nat) - 1 = 0 by omega]; exact h0] at hmain
    exact hmain
  intro u hu
  by_cases hu0 : u = 0
  · subst hu0
    rw [if_pos (Or.inl (by omega)), h0]
  · rw [if_neg ?_]
    push_neg
    constructor
    · omega
    · intro hrev
      have hrev0 : bitRev k u = 0 := by omega
      have : u = 0 := by
        have := @bitRev_inj k u 0 (by rw [← hn]; exact hu)
          (Nat.pos_pow_of_pos k (by norm_num))
          (by rw [hrev0, bitRev_zero_val])
        omega
      omega

theorem bitReverseL_length (n : Nat) (v : List Nat) :
    (bitReverseL n v).length = v.length := bitRevLoop_length n _ _ _ v

theorem cast_wpow (q wl : Nat) : ∀ t, ((wpow q wl t : Nat) : ZMod q) = (wl : ZMod q) ^ t := by
  intro t
  induction t with
  | zero => simp [wpow]
  | succ t ih => rw [wpow, cast_modMul, ih, pow_succ]

theorem wpow_lt {q wl : Nat} (hq : 2 ≤ q) : ∀ t, wpow q wl t < q := by
  intro t
  cases t with
  | zero => simpa [wpow] using hq
  | succ t => exact modMul_lt (by omega)

theorem innerJ_length (q wl p half : Nat) :
    ∀ c j w v, (innerJ q wl p half c j w v : List Nat).length = v.length := by
  intro c
  induction c with
  | zero => intro j w v; rfl
  | succ c ih => intro j w v; rw [innerJ, ih]; simp

theorem innerJ_getD {q wl p half : Nat} :
    ∀ c j w v, j + c = half → w = wpow q wl j → p + half + half ≤ v.length →
      ∀ idx,
        (innerJ q wl p half c j w v).getD idx 0 =
          if p + j ≤ idx ∧ idx < p + half then
            modAdd (v.getD idx 0) (modMul (v.getD (idx + half) 0) (wpow q wl (idx - p)) q) q
          else if p + half + j ≤ idx ∧ idx < p + half + half then
            modSub (v.getD (idx - half) 0) (modMul (v.getD idx 0) (wpow q wl (idx - p - half)) q) q
          else v.getD idx 0 := by
  intro c
  induction c with
  | zero =>
    intro j w v hj hw hlen idx
    rw [innerJ, if_neg (by omega), if_neg (by omega)]
  | succ c ih =>
    intro j w v hj hw hlen idx
    have hhalf1 : 1 ≤ half := by omega
    have hin1 : p + j < v.length := by omega
    have hin2 : p + j + half < v.length := by omega
    rw [innerJ]
    set u := v.getD (p + j) 0 with hu
    set x := modMul (v.getD (p + j + half) 0) w q with hx
    set v2 := (v.set (p + j) (modAdd u x q)).set (p + j + half) (modSub u x q) with hv2
    have hlen2 : v2.length = v.length := by rw [hv2]; simp
    have hread : ∀ m, m ≠ p + j → m ≠ p + j + half → v2.getD m 0 = v.getD m 0 := by
      intro m hm1 hm2
      rw [hv2, getD_set_other (fun h => hm2 h.symm), getD_set_other (fun h => hm1 h.symm)]
    have hreadA : v2.getD (p + j) 0 = modAdd u x q := by
      rw [hv2, getD_set_other (by omega), getD_set_self (by simpa using hin1)]
    have hreadB : v2.getD (p + j + half) 0 = modSub u x q := by
      rw [hv2, getD_set_self (by simpa using hin2)]
    rw [ih (j + 1) _ v2 (by omega) (by rw [wpow, hw]) (by omega : p + half + half ≤ v2.length) idx]
    by_cases hA : p + j ≤ idx ∧ idx < p + half
    · rw [if_pos hA]
      by_cases hAj : idx = p + j
      · rw [if_neg (by omega), if_neg (by omega), hAj, hreadA, hu, hx, hw,
          show p + j - p = j by omega]
      · rw [if_pos (by omega : p + (j + 1) ≤ idx ∧ idx < p + half),
          hread idx (by omega) (by omega), hread (idx + half) (by omega) (by omega)]
    · rw [if_neg hA]
      by_cases hB : p + half + j ≤ idx ∧ idx < p + half + half
      · rw [if_pos hB]
        by_cases hBj : idx = p + j + half
        · rw [if_neg (by omega), if_neg (by omega), hBj, hreadB, hu, hx, hw,
            show p + j + half - half = p + j by omega, show p + j + half - p - half = j by omega]
        · rw [if_neg (by omega), if_pos (by omega : p + half + (j + 1) ≤ idx ∧ idx < p + half + half),
            hread (idx - half) (by omega) (by omega), hread idx (by omega) (by omega)]
      · rw [if_neg hB, if_neg (by omega), if_neg (by omega),
          hread idx (by omega) (by omega)]

theorem blocksJ_length (q wl len half : Nat) :
    ∀ c p v, (blocksJ q wl len half c p v : List Nat).length = v.length := by
  intro c
  induction c with
  | zero => intro p v; rfl
  | succ c ih => intro p v; rw [blocksJ, ih, innerJ_length]

theorem blocksJ_getD {q wl half : Nat} :
    ∀ c p v, p + c * (half + half) ≤ v.length →
      ∀ idx,
        (blocksJ q wl (half + half) half c p v).getD idx 0 =
          if p ≤ idx ∧ idx < p + c * (half + half) then
            if (idx - p) % (half + half) < half then
              modAdd (v.getD idx 0)
                (modMul (v.getD (idx + half) 0) (wpow q wl ((idx - p) % (half + half))) q) q
            else
              modSub (v.getD (idx - half) 0)
                (modMul (v.getD idx 0) (wpow q wl ((idx - p) % (half + half) - half)) q) q
          else v.getD idx 0 := by
  intro c
  induction c with
  | zero =>
    intro p v hlen idx
    rw [blocksJ, if_neg (by simp)]
  | succ c ih =>
    intro p v hlen idx
    rw [Nat.succ_mul] at hlen
    set L := half + half with hL
    set v1 := innerJ q wl p half half 0 1 v with hv1
    have hlen1 : v1.length = v.length := by rw [hv1]; exact innerJ_length q wl p half half 0 1 v
    have hinner := @innerJ_getD q wl p half half 0 1 v (by omega) rfl (by omega)
    have hstep : blocksJ q wl L half (c + 1) p v = blocksJ q wl L half c (p + L) v1 := by
      rw [blocksJ]
    rw [hstep, ih (p + L) v1 (by omega)]
    have huntouched : ∀ m, m < p ∨ p + L ≤ m → v1.getD m 0 = v.getD m 0 := by
      intro m hm
      rw [hv1, hinner m, if_neg (by omega), if_neg (by omega)]
    by_cases hfirst : p ≤ idx ∧ idx < p + L
    · rw [if_neg (by omega),
        if_pos (show p ≤ idx ∧ idx < p + (c + 1) * L from by
          rw [show (c + 1) * L = c * L + L from by ring]; omega),
        hv1, hinner idx]
      have hmod : (idx - p) % L = idx - p := Nat.mod_eq_of_lt (by omega)
      rw [hmod]
      by_cases ht : idx - p < half
      · rw [if_pos (show p + 0 ≤ idx ∧ idx < p + half from by omega), if_pos ht]
      · rw [if_neg (show ¬(p + 0 ≤ idx ∧ idx < p + half) from by omega),
          if_pos (show p + half + 0 ≤ idx ∧ idx < p + half + half from by omega),
          if_neg ht]
    · by_cases hrest : p + L ≤ idx ∧ idx < p + L + c * L
      · rw [if_pos hrest,
          if_pos (show p ≤ idx ∧ idx < p + (c + 1) * L from by
            rw [show (c + 1) * L = c * L + L from by ring]; omega)]
        have hmod : (idx - p) % L = (idx - (p + L)) % L := by
          rw [show idx - p = idx - (p + L) + L by omega, Nat.add_mod_right]
        rw [hmod]
        by_cases ht : (idx - (p + L)) % L < half
        · rw [if_pos ht, if_pos ht, huntouched idx (by omega),
            huntouched (idx + half) (by omega)]
        · have hmodle : (idx - (p + L)) % L ≤ idx - (p + L) := Nat.mod_le _ _
          have hidxlow : p + L + half ≤ idx := by omega
          rw [if_neg ht, if_neg ht, huntouched idx (by omega),
            huntouched (idx - half) (by omega)]
      · rw [if_neg hrest,
          if_neg (show ¬(p ≤ idx ∧ idx < p + (c + 1) * L) from by
            rw [show (c + 1) * L = c * L + L from by ring]; omega),
          huntouched idx (by omega)]


theorem sqChain_spec {q n c : Nat} (hq : 2 ≤ q) (hn : n = 2 ^ c) :
    ∀ f a w, a ≤ c → c - a ≤ f → w < q →
      sqChain q n f (2 ^ a) w < q ∧
        ((sqChain q n f (2 ^ a) w : Nat) : ZMod q) = (w : ZMod q) ^ 2 ^ (c - a) := by
  intro f
  induction f with
  | zero =>
    intro a w hac hf hw
    have hA : a = c := by omega
    subst hA
    rw [sqChain, Nat.sub_self, pow_zero, pow_one]
    exact ⟨hw, rfl⟩
  | succ f ih =>
    intro a w hac hf hw
    by_cases hlt : a < c
    · have hpl : 2 ^ a < n := by
        rw [hn]
        exact Nat.pow_lt_pow_right (by norm_num) hlt
      rw [sqChain, if_pos hpl, show 2 * 2 ^ a = 2 ^ (a + 1) by rw [pow_succ]; ring]
      obtain ⟨hb, hcast⟩ := ih (a + 1) (modMul w w q) (by omega) (by omega)
        (modMul_lt (by omega))
      refine ⟨hb, ?_⟩
      rw [hcast, cast_modMul]
      rw [show ((w : ZMod q) * (w : ZMod q)) = (w : ZMod q) ^ 2 by ring, ← pow_mul]
      congr 1
      rw [← pow_succ']
      congr 1
      omega
    · have hA : a = c := by omega
      have hpl : ¬(2 ^ c < n) := by rw [hn]; omega
      rw [hA, sqChain, if_neg hpl, Nat.sub_self, pow_zero, pow_one]
      exact ⟨hw, rfl⟩

theorem sum_range_even_odd {M : Type} [AddCommMonoid M] (L : Nat) (f : Nat → M) :
    ∑ m ∈ Finset.range (2 * L), f m =
      ∑ m ∈ Finset.range L, f (2 * m) + ∑ m ∈ Finset.range L, f (2 * m + 1) := by
  induction L with
  | zero => simp
  | succ L ih =>
    rw [show 2 * (L + 1) = 2 * L + 1 + 1 by ring, Finset.sum_range_succ,
      Finset.sum_range_succ, ih, Finset.sum_range_succ, Finset.sum_range_succ]
    abel

theorem bitRev_even (m b : Nat) : bitRev (m + 1) (2 * b) = bitRev m b := by
  rw [bitRev, Nat.mul_mod_right, Nat.mul_div_cancel_left _ (by norm_num : 0 < 2)]
  simp

theorem bitRev_odd (m b : Nat) : bitRev (m + 1) (2 * b + 1) = 2 ^ m + bitRev m b := by
  rw [bitRev, Nat.mul_add_mod,
    show (2 * b + 1) / 2 = b from by omega]
  simp [Nat.add_comm]

theorem stageStep {q n k s : Nat} (hq : 2 < q) (hn : n = 2 ^ k) (hsk : s < k)
    {w0 : Nat} (hw0 : w0 < q)
    (hmh : ((w0 : ZMod q)) ^ 2 ^ (k - 1) = -1)
    {x : Nat → ZMod q} {v : List Nat} (hvlen : v.length = n)
    (hvb : ∀ i, v.getD i 0 < q)
    (hinv : ∀ b t, b < 2 ^ (k - s) → t < 2 ^ s →
      ((v.getD (b * 2 ^ s + t) 0 : Nat) : ZMod q) =
        ∑ m ∈ Finset.range (2 ^ s),
          x (m * 2 ^ (k - s) + bitRev (k - s) b) *
            (((w0 : ZMod q)) ^ 2 ^ (k - s)) ^ (m * t))
    (v2 : List Nat)
    (hv2 : v2 = blocksJ q (sqChain q n n (2 ^ (s + 1)) w0) (2 ^ (s + 1))
      (2 ^ (s + 1) / 2) (n / 2 ^ (s + 1)) 0 v) :
    v2.length = n ∧ (∀ i, v2.getD i 0 < q) ∧
      ∀ b t, b < 2 ^ (k - (s + 1)) → t < 2 ^ (s + 1) →
        ((v2.getD (b * 2 ^ (s + 1) + t) 0 : Nat) : ZMod q) =
          ∑ m ∈ Finset.range (2 ^ (s + 1)),
            x (m * 2 ^ (k - (s + 1)) + bitRev (k - (s + 1)) b) *
              (((w0 : ZMod q)) ^ 2 ^ (k - (s + 1))) ^ (m * t) := by
  have hA1 : k - (s + 1) + 1 = k - s := by omega
  have h2A : (2 : Nat) ^ (k - s) = 2 * 2 ^ (k - (s + 1)) := by
    rw [← hA1, pow_succ]; ring
  have hLH : (2 : Nat) ^ (s + 1) = 2 ^ s + 2 ^ s := by rw [pow_succ]; ring
  have hhalf : (2 : Nat) ^ (s + 1) / 2 = 2 ^ s := by rw [pow_succ]; omega
  have hsplit : (2 : Nat) ^ k = 2 ^ (k - (s + 1)) * 2 ^ (s + 1) := by
    rw [← pow_add]; congr 1; omega
  have hC : n / 2 ^ (s + 1) = 2 ^ (k - (s + 1)) := by
    rw [hn, hsplit, Nat.mul_div_cancel _ (pow_pos (by norm_num) _)]
  have hCL : 2 ^ (k - (s + 1)) * (2 ^ s + 2 ^ s) = n := by
    rw [← hLH, ← hsplit, hn]
  have hcall : v2 = blocksJ q (sqChain q n n (2 ^ (s + 1)) w0) (2 ^ s + 2 ^ s) (2 ^ s)
      (2 ^ (k - (s + 1))) 0 v := by
    rw [hv2, hhalf, hC, hLH]
  obtain ⟨hwl_lt, hwl_cast⟩ := @sqChain_spec q n k (by omega) hn n (s + 1) w0 (by omega)
    (by have := Nat.lt_two_pow k; omega) hw0
  have hmain := @blocksJ_getD q (sqChain q n n (2 ^ (s + 1)) w0) (2 ^ s) (2 ^ (k - (s + 1)))
    0 v (by rw [hvlen]; omega)
  have hlen2 : v2.length = n := by rw [hcall, blocksJ_length, hvlen]
  have hb2 : ∀ i, v2.getD i 0 < q := by
    intro i
    rw [hcall, hmain i]
    split_ifs with h1 h2
    · exact modAdd_lt (hvb _) (modMul_lt (by omega))
    · exact modSub_lt (hvb _) (modMul_lt (by omega))
    · exact hvb i
  refine ⟨hlen2, hb2, ?_⟩
  intro b t hb ht
  have hbl : (b + 1) * 2 ^ (s + 1) ≤ 2 ^ (k - (s + 1)) * 2 ^ (s + 1) :=
    Nat.mul_le_mul_right _ (by omega)
  have hb1 : b * 2 ^ (s + 1) + 2 ^ (s + 1) = (b + 1) * 2 ^ (s + 1) := by ring
  have hidxlt : b * 2 ^ (s + 1) + t < n := by rw [hn, hsplit]; omega
  have hidxin : 0 ≤ b * 2 ^ (s + 1) + t ∧
      b * 2 ^ (s + 1) + t < 0 + 2 ^ (k - (s + 1)) * (2 ^ s + 2 ^ s) := by
    refine ⟨Nat.zero_le _, ?_⟩
    rw [Nat.zero_add, hCL]
    exact hidxlt
  have hmod : (b * 2 ^ (s + 1) + t - 0) % (2 ^ s + 2 ^ s) = t := by
    rw [Nat.sub_zero, ← hLH, Nat.add_comm (b * 2 ^ (s + 1)) t, Nat.add_mul_mod_self_right,
      Nat.mod_eq_of_lt ht]
  have hy2 : ((w0 : ZMod q)) ^ 2 ^ (k - s) = (((w0 : ZMod q)) ^ 2 ^ (k - (s + 1))) ^ 2 := by
    rw [← pow_mul]; congr 1; rw [h2A]; ring
  have hys : (((w0 : ZMod q)) ^ 2 ^ (k - (s + 1))) ^ 2 ^ s = -1 := by
    rw [← pow_mul, ← pow_add, show k - (s + 1) + s = k - 1 from by omega]
    exact hmh
  have hinv2 : ∀ b' t', b' < 2 ^ (k - s) → t' < 2 ^ s →
      ((v.getD (b' * 2 ^ s + t') 0 : Nat) : ZMod q) =
        ∑ m ∈ Finset.range (2 ^ s),
          x (m * 2 ^ (k - s) + bitRev (k - s) b') *
            ((((w0 : ZMod q)) ^ 2 ^ (k - (s + 1))) ^ 2) ^ (m * t') := by
    intro b' t' h1 h2
    rw [← hy2]
    exact hinv b' t' h1 h2
  have h2b : 2 * b < 2 ^ (k - s) := by omega
  have h2b1 : 2 * b + 1 < 2 ^ (k - s) := by omega
  have hRO : (∑ m ∈ Finset.range (2 ^ (s + 1)),
      x (m * 2 ^ (k - (s + 1)) + bitRev (k - (s + 1)) b) *
        (((w0 : ZMod q)) ^ 2 ^ (k - (s + 1))) ^ (m * t)) =
      (∑ m ∈ Finset.range (2 ^ s),
        x (2 * m * 2 ^ (k - (s + 1)) + bitRev (k - (s + 1)) b) *
          (((w0 : ZMod q)) ^ 2 ^ (k - (s + 1))) ^ (2 * m * t)) +
      ∑ m ∈ Finset.range (2 ^ s),
        x ((2 * m + 1) * 2 ^ (k - (s + 1)) + bitRev (k - (s + 1)) b) *
          (((w0 : ZMod q)) ^ 2 ^ (k - (s + 1))) ^ ((2 * m + 1) * t) := by
    rw [show (2 : Nat) ^ (s + 1) = 2 * 2 ^ s from by rw [pow_succ]; ring]
    exact sum_range_even_odd (2 ^ s) _
  rw [hRO]
  by_cases htH : t < 2 ^ s
  · rw [hcall, hmain (b * 2 ^ (s + 1) + t), if_pos ⟨by omega, hidxin.2⟩, hmod, if_pos htH,
      cast_modAdd, cast_modMul, cast_wpow, hwl_cast]
    have hi2 : b * 2 ^ (s + 1) + t + 2 ^ s = (2 * b + 1) * 2 ^ s + t := by
      rw [pow_succ]; ring
    have hi1 : b * 2 ^ (s + 1) + t = 2 * b * 2 ^ s + t := by
      rw [pow_succ]; ring
    rw [hi2, hi1, hinv2 (2 * b) t h2b htH, hinv2 (2 * b + 1) t h2b1 htH]
    congr 1
    · refine Finset.sum_congr rfl fun m hm => ?_
      have harg : m * 2 ^ (k - s) + bitRev (k - s) (2 * b) =
          2 * m * 2 ^ (k - (s + 1)) + bitRev (k - (s + 1)) b := by
        rw [← hA1, bitRev_even, pow_succ]
        ring
      rw [harg]
      congr 1
      rw [← pow_mul]
      congr 1
      ring
    · rw [Finset.sum_mul]
      refine Finset.sum_congr rfl fun m hm => ?_
      have harg : m * 2 ^ (k - s) + bitRev (k - s) (2 * b + 1) =
          (2 * m + 1) * 2 ^ (k - (s + 1)) + bitRev (k - (s + 1)) b := by
        rw [← hA1, bitRev_odd, pow_succ]
        ring
      have hpow : ((((w0 : ZMod q)) ^ 2 ^ (k - (s + 1))) ^ 2) ^ (m * t) *
          (((w0 : ZMod q)) ^ 2 ^ (k - (s + 1))) ^ t =
          (((w0 : ZMod q)) ^ 2 ^ (k - (s + 1))) ^ ((2 * m + 1) * t) := by
        rw [← pow_mul, ← pow_add]
        congr 1
        ring
      rw [harg, mul_assoc, hpow]
  · have hts : 2 ^ s ≤ t := by omega
    obtain ⟨t2, rfl⟩ : ∃ t2, t = 2 ^ s + t2 := ⟨t - 2 ^ s, by omega⟩
    have ht2 : t2 < 2 ^ s := by omega
    have hble : modMul (v.getD (b * 2 ^ (s + 1) + (2 ^ s + t2)) 0)
        (wpow q (sqChain q n n (2 ^ (s + 1)) w0) (2 ^ s + t2 - 2 ^ s)) q ≤
        v.getD (b * 2 ^ (s + 1) + (2 ^ s + t2) - 2 ^ s) 0 + q := by
      have h := @modMul_lt (v.getD (b * 2 ^ (s + 1) + (2 ^ s + t2)) 0)
        (wpow q (sqChain q n n (2 ^ (s + 1)) w0) (2 ^ s + t2 - 2 ^ s)) q (by omega)
      omega
    have hmul2 : b * 2 ^ (s + 1) = 2 * b * 2 ^ s := by rw [pow_succ]; ring
    have hi1 : b * 2 ^ (s + 1) + (2 ^ s + t2) - 2 ^ s = 2 * b * 2 ^ s + t2 := by omega
    have hi2 : b * 2 ^ (s + 1) + (2 ^ s + t2) = (2 * b + 1) * 2 ^ s + t2 := by
      have h21 : (2 * b + 1) * 2 ^ s = 2 * b * 2 ^ s + 2 ^ s := by ring
      omega
    rw [hcall, hmain (b * 2 ^ (s + 1) + (2 ^ s + t2)), if_pos ⟨by omega, hidxin.2⟩, hmod,
      if_neg htH, cast_modSub q hble, cast_modMul, cast_wpow, hwl_cast,
      Nat.add_sub_cancel_left, hi1, hi2, hinv2 (2 * b) t2 h2b ht2,
      hinv2 (2 * b + 1) t2 h2b1 ht2]
    have hEterm : ∀ m : Nat,
        (((w0 : ZMod q)) ^ 2 ^ (k - (s + 1))) ^ (2 * m * (2 ^ s + t2)) =
          ((((w0 : ZMod q)) ^ 2 ^ (k - (s + 1))) ^ 2) ^ (m * t2) := by
      intro m
      calc (((w0 : ZMod q)) ^ 2 ^ (k - (s + 1))) ^ (2 * m * (2 ^ s + t2))
          = (((w0 : ZMod q)) ^ 2 ^ (k - (s + 1))) ^ (2 ^ s * (2 * m) + 2 * (m * t2)) := by
            congr 1
            ring
        _ = ((((w0 : ZMod q)) ^ 2 ^ (k - (s + 1))) ^ 2 ^ s) ^ (2 * m) *
              ((((w0 : ZMod q)) ^ 2 ^ (k - (s + 1))) ^ 2) ^ (m * t2) := by
            rw [pow_add, pow_mul (((w0 : ZMod q)) ^ 2 ^ (k - (s + 1))) (2 ^ s) (2 * m),
              pow_mul (((w0 : ZMod q)) ^ 2 ^ (k - (s + 1))) 2 (m * t2)]
        _ = ((-1 : ZMod q)) ^ (2 * m) *
              ((((w0 : ZMod q)) ^ 2 ^ (k - (s + 1))) ^ 2) ^ (m * t2) := by
            rw [hys]
        _ = ((((w0 : ZMod q)) ^ 2 ^ (k - (s + 1))) ^ 2) ^ (m * t2) := by
            rw [pow_mul, neg_one_sq, one_pow, one_mul]
    have hOterm : ∀ m : Nat,
        (((w0 : ZMod q)) ^ 2 ^ (k - (s + 1))) ^ ((2 * m + 1) * (2 ^ s + t2)) =
          -(((((w0 : ZMod q)) ^ 2 ^ (k - (s + 1))) ^ 2) ^ (m * t2) *
            (((w0 : ZMod q)) ^ 2 ^ (k - (s + 1))) ^ t2) := by
      intro m
      calc (((w0 : ZMod q)) ^ 2 ^ (k - (s + 1))) ^ ((2 * m + 1) * (2 ^ s + t2))
          = (((w0 : ZMod q)) ^ 2 ^ (k - (s + 1))) ^ (2 * m * (2 ^ s + t2)) *
              ((((w0 : ZMod q)) ^ 2 ^ (k - (s + 1))) ^ 2 ^ s *
                (((w0 : ZMod q)) ^ 2 ^ (k - (s + 1))) ^ t2) := by
            rw [← pow_add, ← pow_add]
            congr 1
            ring
        _ = -(((((w0 : ZMod q)) ^ 2 ^ (k - (s + 1))) ^ 2) ^ (m * t2) *
              (((w0 : ZMod q)) ^ 2 ^ (k - (s + 1))) ^ t2) := by
            rw [hEterm m, hys]
            ring
    calc (∑ m ∈ Finset.range (2 ^ s),
          x (m * 2 ^ (k - s) + bitRev (k - s) (2 * b)) *
            ((((w0 : ZMod q)) ^ 2 ^ (k - (s + 1))) ^ 2) ^ (m * t2)) -
        (∑ m ∈ Finset.range (2 ^ s),
          x (m * 2 ^ (k - s) + bitRev (k - s) (2 * b + 1)) *
            ((((w0 : ZMod q)) ^ 2 ^ (k - (s + 1))) ^ 2) ^ (m * t2)) *
          (((w0 : ZMod q)) ^ 2 ^ (k - (s + 1))) ^ t2
        = (∑ m ∈ Finset.range (2 ^ s),
            x (2 * m * 2 ^ (k - (s + 1)) + bitRev (k - (s + 1)) b) *
              ((((w0 : ZMod q)) ^ 2 ^ (k - (s + 1))) ^ 2) ^ (m * t2)) -
          ∑ m ∈ Finset.range (2 ^ s),
            x ((2 * m + 1) * 2 ^ (k - (s + 1)) + bitRev (k - (s + 1)) b) *
              (((((w0 : ZMod q)) ^ 2 ^ (k - (s + 1))) ^ 2) ^ (m * t2) *
                (((w0 : ZMod q)) ^ 2 ^ (k - (s + 1))) ^ t2) := by
          rw [Finset.sum_mul]
          congr 1
          · refine Finset.sum_congr rfl fun m hm => ?_
            have harg : m * 2 ^ (k - s) + bitRev (k - s) (2 * b) =
                2 * m * 2 ^ (k - (s + 1)) + bitRev (k - (s + 1)) b := by
              rw [← hA1, bitRev_even, pow_succ]
              ring
            rw [harg]
          · refine Finset.sum_congr rfl fun m hm => ?_
            have harg : m * 2 ^ (k - s) + bitRev (k - s) (2 * b + 1) =
                (2 * m + 1) * 2 ^ (k - (s + 1)) + bitRev (k - (s + 1)) b := by
              rw [← hA1, bitRev_odd, pow_succ]
              ring
            rw [harg, mul_assoc]
      _ = (∑ m ∈ Finset.range (2 ^ s),
            x (2 * m * 2 ^ (k - (s + 1)) + bitRev (k - (s + 1)) b) *
              (((w0 : ZMod q)) ^ 2 ^ (k - (s + 1))) ^ (2 * m * (2 ^ s + t2))) +
          ∑ m ∈ Finset.range (2 ^ s),
            x ((2 * m + 1) * 2 ^ (k - (s + 1)) + bitRev (k - (s + 1)) b) *
              (((w0 : ZMod q)) ^ 2 ^ (k - (s + 1))) ^ ((2 * m + 1) * (2 ^ s + t2)) := by
          rw [sub_eq_add_neg, ← Finset.sum_neg_distrib]
          congr 1
          · refine Finset.sum_congr rfl fun m hm => ?_
            rw [hEterm m]
          · refine Finset.sum_congr rfl fun m hm => ?_
            rw [hOterm m]
            ring

theorem stagesLoop_dft {q n k : Nat} (hq : 2 < q) (hn : n = 2 ^ k)
    {w0 : Nat} (hw0 : w0 < q)
    (hmh : ((w0 : ZMod q)) ^ 2 ^ (k - 1) = -1)
    {x : Nat → ZMod q} :
    ∀ rem s (v : List Nat) f, s + rem = k → rem ≤ f → v.length = n →
      (∀ i, v.getD i 0 < q) →
      (∀ b t, b < 2 ^ (k - s) → t < 2 ^ s →
        ((v.getD (b * 2 ^ s + t) 0 : Nat) : ZMod q) =
          ∑ m ∈ Finset.range (2 ^ s),
            x (m * 2 ^ (k - s) + bitRev (k - s) b) *
              (((w0 : ZMod q)) ^ 2 ^ (k - s)) ^ (m * t)) →
      (stagesLoop q n w0 f (2 ^ (s + 1)) v).length = n ∧
        (∀ i, (stagesLoop q n w0 f (2 ^ (s + 1)) v).getD i 0 < q) ∧
        ∀ t, t < n →
          (((stagesLoop q n w0 f (2 ^ (s + 1)) v).getD t 0 : Nat) : ZMod q) =
            dftZ q n ((w0 : ZMod q)) x t := by
  intro rem
  induction rem with
  | zero =>
    intro s v f hsk hf hvlen hvb hinv
    have hs : s = k := by omega
    subst hs
    have h2 : 2 ^ s < 2 ^ (s + 1) := Nat.pow_lt_pow_right (by norm_num) (by omega)
    have hgt : ¬(2 ^ (s + 1) ≤ n) := by rw [hn]; omega
    have hres : stagesLoop q n w0 f (2 ^ (s + 1)) v = v := by
      cases f with
      | zero => rfl
      | succ f => rw [stagesLoop, if_neg hgt]
    rw [hres]
    refine ⟨hvlen, hvb, ?_⟩
    intro t ht
    have := hinv 0 t (by rw [Nat.sub_self]; norm_num) (by omega)
    rw [Nat.sub_self] at this
    simp only [pow_zero, mul_one, pow_one, Nat.zero_mul, Nat.zero_add,
      show bitRev 0 0 = 0 from rfl, Nat.add_zero] at this
    rw [this, dftZ, hn]
  | succ rem ih =>
    intro s v f hsk hf hvlen hvb hinv
    cases f with
    | zero => exact absurd hf (by omega)
    | succ f =>
      have hsklt : s < k := by omega
      have hle : 2 ^ (s + 1) ≤ n := by
        rw [hn]; exact Nat.pow_le_pow_right (by norm_num) (by omega)
      obtain ⟨hlen2, hb2, hinv2⟩ := stageStep hq hn hsklt hw0 hmh hvlen hvb hinv _ rfl
      have hrec := ih (s + 1)
        (blocksJ q (sqChain q n n (2 ^ (s + 1)) w0) (2 ^ (s + 1)) (2 ^ (s + 1) / 2)
          (n / 2 ^ (s + 1)) 0 v) f (by omega) (by omega) hlen2 hb2 hinv2
      rw [stagesLoop, if_pos hle,
        show 2 * 2 ^ (s + 1) = 2 ^ (s + 1 + 1) from by rw [pow_succ]; ring]
      exact hrec

theorem nttRaw_dft {q n k : Nat} (hq : 2 < q) (hn : n = 2 ^ k) (hk : 1 ≤ k)
    {w0 : Nat} (hw0 : w0 < q) (hmh : ((w0 : ZMod q)) ^ 2 ^ (k - 1) = -1)
    (v : List Nat) (hvlen : v.length = n) (hvb : ∀ i, v.getD i 0 < q) :
    (stagesLoop q n w0 n 2 (bitReverseL n v)).length = n ∧
      (∀ i, (stagesLoop q n w0 n 2 (bitReverseL n v)).getD i 0 < q) ∧
      ∀ t, t < n →
        (((stagesLoop q n w0 n 2 (bitReverseL n v)).getD t 0 : Nat) : ZMod q) =
          dftZ q n ((w0 : ZMod q)) (zv q v) t := by
  have hlen1 : (bitReverseL n v).length = n := by rw [bitReverseL_length, hvlen]
  have hb1 : ∀ i, (bitReverseL n v).getD i 0 < q := by
    intro i
    by_cases hi : i < n
    · rw [bitReverseL_getD hn hk v hvlen i hi]; exact hvb _
    · rw [getD_of_len_le (by omega)]; omega
  have hinv0 : ∀ b t, b < 2 ^ (k - 0) → t < 2 ^ 0 →
      (((bitReverseL n v).getD (b * 2 ^ 0 + t) 0 : Nat) : ZMod q) =
        ∑ m ∈ Finset.range (2 ^ 0),
          zv q v (m * 2 ^ (k - 0) + bitRev (k - 0) b) *
            (((w0 : ZMod q)) ^ 2 ^ (k - 0)) ^ (m * t) := by
    intro b t hb ht
    rw [Nat.sub_zero] at hb ⊢
    have ht0 : t = 0 := by omega
    subst ht0
    rw [pow_zero, Finset.sum_range_one, mul_one, Nat.add_zero, Nat.zero_mul, Nat.zero_add,
      Nat.mul_zero, pow_zero, mul_one,
      bitReverseL_getD hn hk v hvlen b (by rw [hn]; exact hb)]
    rfl
  have := stagesLoop_dft hq hn hw0 hmh k 0 (bitReverseL n v) n (by omega)
    (by rw [hn]; have := Nat.lt_two_pow k; omega) hlen1 hb1 hinv0
  rw [show (2 : Nat) ^ (0 + 1) = 2 from by norm_num] at this
  exact this

theorem root_pow_ne_one {q k : Nat} (hq : 2 < q) (hprime : q.Prime) {w : ZMod q}
    (hmh : w ^ 2 ^ (k - 1) = -1) (hk : 1 ≤ k) :
    ∀ d, 0 < d → d < 2 ^ k → w ^ d ≠ 1 := by
  haveI : Fact (2 < q) := ⟨hq⟩
  intro d hd0 hdlt hone
  have hwn : w ^ 2 ^ k = 1 := by
    rw [show (2 : Nat) ^ k = 2 ^ (k - 1) * 2 from by rw [← pow_succ]; congr 1; omega,
      pow_mul, hmh, neg_one_sq]
  have hdvd : orderOf w ∣ 2 ^ k := orderOf_dvd_of_pow_eq_one hwn
  obtain ⟨a, hak, hao⟩ := (Nat.dvd_prime_pow Nat.prime_two).mp hdvd
  by_cases hk1 : a ≤ k - 1
  · have h2 : orderOf w ∣ 2 ^ (k - 1) := by
      rw [hao]; exact pow_dvd_pow 2 hk1
    have hone' : w ^ 2 ^ (k - 1) = 1 := orderOf_dvd_iff_pow_eq_one.mp h2
    rw [hmh] at hone'
    exact ZMod.neg_one_ne_one hone'
  · have hak' : a = k := by omega
    have hdvd2 : orderOf w ∣ d := orderOf_dvd_of_pow_eq_one hone
    rw [hao, hak'] at hdvd2
    have := Nat.le_of_dvd hd0 hdvd2
    omega

theorem dft_inversion {q k n : Nat} (hq : 2 < q) (hprime : q.Prime) (hk : 1 ≤ k)
    (hn : n = 2 ^ k) {w wi ni : ZMod q} (hmh : w ^ 2 ^ (k - 1) = -1)
    (hwi : w * wi = 1) (hni : (n : ZMod q) * ni = 1) (x : Nat → ZMod q) :
    ∀ i, i < n → ni * dftZ q n wi (fun t => dftZ q n w x t) i = x i := by
  intro i hi
  haveI : Fact q.Prime := ⟨hprime⟩
  have hwn : w ^ n = 1 := by
    rw [hn, show (2 : Nat) ^ k = 2 ^ (k - 1) * 2 from by rw [← pow_succ]; congr 1; omega,
      pow_mul, hmh, neg_one_sq]
  have hwin : wi ^ n = 1 := by
    have h1 : (w * wi) ^ n = 1 := by rw [hwi, one_pow]
    rw [mul_pow, hwn, one_mul] at h1
    exact h1
  have hzsum : ∀ j, j < n → (∑ t ∈ Finset.range n, (w ^ j * wi ^ i) ^ t) =
      if j = i then (n : ZMod q) else 0 := by
    intro j hj
    by_cases hji : j = i
    · subst hji
      rw [if_pos rfl, ← mul_pow, hwi, one_pow]
      simp
    · rw [if_neg hji]
      have hzn : (w ^ j * wi ^ i) ^ n = 1 := by
        have h1 : (w ^ j) ^ n = 1 := by rw [← pow_mul, mul_comm, pow_mul, hwn, one_pow]
        have h2 : (wi ^ i) ^ n = 1 := by rw [← pow_mul, mul_comm, pow_mul, hwin, one_pow]
        rw [mul_pow, h1, h2, one_mul]
      have hzne : w ^ j * wi ^ i ≠ 1 := by
        intro hz
        have hwu : w ≠ 0 := by
          intro h0; rw [h0, zero_mul] at hwi; exact zero_ne_one hwi
        have hwwi : ∀ m : Nat, w ^ m * wi ^ m = 1 := fun m => by
          rw [← mul_pow, hwi, one_pow]
        have hww : w ^ j = w ^ i := by
          have hz2 := congrArg (fun u => u * w ^ i) hz
          simp only [one_mul] at hz2
          rw [mul_assoc, mul_comm (wi ^ i) (w ^ i), hwwi i, mul_one] at hz2
          exact hz2
        rcases Nat.lt_or_ge j i with hlt | hge
        · have hc : w ^ j * w ^ (i - j) = w ^ j * 1 := by
            rw [← pow_add, show j + (i - j) = i from by omega, hww, mul_one]
          have hd := mul_left_cancel₀ (pow_ne_zero j hwu) hc
          exact root_pow_ne_one hq hprime hmh hk (i - j) (by omega) (by rw [← hn]; omega) hd
        · have hgt : i < j := by omega
          have hc : w ^ i * w ^ (j - i) = w ^ i * 1 := by
            rw [← pow_add, show i + (j - i) = j from by omega, ← hww, mul_one]
          have hd := mul_left_cancel₀ (pow_ne_zero i hwu) hc
          exact root_pow_ne_one hq hprime hmh hk (j - i) (by omega) (by rw [← hn]; omega) hd
      have hgeo := geom_sum_mul (w ^ j * wi ^ i) n
      rw [hzn, sub_self] at hgeo
      rcases mul_eq_zero.mp hgeo with h | h
      · exact h
      · exact absurd (by rwa [sub_eq_zero] at h) hzne
  have hterm : ∀ j t : Nat, x j * w ^ (j * t) * wi ^ (t * i) = x j * (w ^ j * wi ^ i) ^ t := by
    intro j t
    rw [mul_pow, ← pow_mul, ← pow_mul, mul_comm t i]
    ring
  have hswap : (∑ t ∈ Finset.range n,
      (∑ j ∈ Finset.range n, x j * w ^ (j * t)) * wi ^ (t * i)) =
      ∑ j ∈ Finset.range n, x j * ∑ t ∈ Finset.range n, (w ^ j * wi ^ i) ^ t := by
    calc (∑ t ∈ Finset.range n, (∑ j ∈ Finset.range n, x j * w ^ (j * t)) * wi ^ (t * i))
        = ∑ t ∈ Finset.range n, ∑ j ∈ Finset.range n,
            x j * w ^ (j * t) * wi ^ (t * i) := by
          refine Finset.sum_congr rfl fun t ht => ?_
          rw [Finset.sum_mul]
      _ = ∑ j ∈ Finset.range n, ∑ t ∈ Finset.range n,
            x j * w ^ (j * t) * wi ^ (t * i) := Finset.sum_comm
      _ = ∑ j ∈ Finset.range n, x j * ∑ t ∈ Finset.range n, (w ^ j * wi ^ i) ^ t := by
          refine Finset.sum_congr rfl fun j hj => ?_
          rw [Finset.mul_sum]
          exact Finset.sum_congr rfl fun t ht => hterm j t
  simp only [dftZ]
  rw [hswap]
  rw [Finset.sum_congr rfl fun j hj => by
    rw [hzsum j (Finset.mem_range.mp hj)]]
  rw [Finset.sum_congr rfl (fun j hj =>
    show x j * (if j = i then (n : ZMod q) else 0) = if j = i then x j * n else 0 from by
      split_ifs <;> simp)]
  rw [Finset.sum_ite_eq' (Finset.range n) i fun j => x j * n]
  rw [if_pos (Finset.mem_range.mpr hi)]
  calc ni * (x i * n) = x i * ((n : ZMod q) * ni) := by ring
    _ = x i := by rw [hni, mul_one]

theorem getD_map_lt {l : List Nat} {f : Nat → Nat} {i : Nat} (h : i < l.length) :
    (l.map f).getD i 0 = f (l.getD i 0) := by
  rw [List.getD_eq_getElem?_getD, List.getElem?_map, List.getElem?_eq_getElem h,
    List.getD_eq_getElem?_getD, List.getElem?_eq_getElem h]
  rfl

theorem nat_eq_of_cast_eq {q a b : Nat} (hq : 0 < q) (ha : a < q) (hb : b < q)
    (h : (a : ZMod q) = (b : ZMod q)) : a = b := by
  haveI : NeZero q := ⟨by omega⟩
  have h2 := congrArg ZMod.val h
  rwa [ZMod.val_cast_of_lt ha, ZMod.val_cast_of_lt hb] at h2

theorem goodCtx_omega_mul {ctx : NTTCtx} {k : Nat} (g : GoodCtx ctx k) :
    ((ctx.omega : ZMod ctx.q)) * ((ctx.omega_inv : ZMod ctx.q)) = 1 := by
  have h := congrArg (fun a : Nat => (a : ZMod ctx.q)) g.hoi
  simp only [ZMod.natCast_mod] at h
  push_cast at h
  exact h

theorem goodCtx_n_mul {ctx : NTTCtx} {k : Nat} (g : GoodCtx ctx k) :
    ((ctx.n : ZMod ctx.q)) * ((ctx.n_inv : ZMod ctx.q)) = 1 := by
  have h := congrArg (fun a : Nat => (a : ZMod ctx.q)) g.hni
  simp only [ZMod.natCast_mod] at h
  push_cast at h
  exact h

theorem goodCtx_tw_mul {ctx : NTTCtx} {k : Nat} (g : GoodCtx ctx k) (i : Nat) :
    ((ctx.psi_powers i : ZMod ctx.q)) * ((ctx.psi_powers_inv i : ZMod ctx.q)) = 1 := by
  have h := congrArg (fun a : Nat => (a : ZMod ctx.q)) (g.htw i)
  simp only [ZMod.natCast_mod] at h
  push_cast at h
  exact h

theorem goodCtx_oinv_half {ctx : NTTCtx} {k : Nat} (g : GoodCtx ctx k) :
    ((ctx.omega_inv : ZMod ctx.q)) ^ 2 ^ (k - 1) = -1 := by
  have h1 : (((ctx.omega : ZMod ctx.q)) * ((ctx.omega_inv : ZMod ctx.q))) ^ 2 ^ (k - 1) = 1 := by
    rw [goodCtx_omega_mul g, one_pow]
  rw [mul_pow, g.homega_half] at h1
  linear_combination -h1

theorem forwardV_spec {ctx : NTTCtx} {k : Nat} (g : GoodCtx ctx k) (v : List Nat)
    (hvlen : v.length = ctx.n) (hvb : ∀ i, v.getD i 0 < ctx.q) :
    (forwardV ctx v).length = ctx.n ∧ (∀ i, (forwardV ctx v).getD i 0 < ctx.q) ∧
      ∀ t, t < ctx.n → (((forwardV ctx v).getD t 0 : Nat) : ZMod ctx.q) =
        phiZ ctx (zv ctx.q v) t := by
  have hq2 : 2 < ctx.q := g.hq2
  have hvlen1 : ((List.range ctx.n).map
      (fun i => modMul (v.getD i 0) (ctx.psi_powers i) ctx.q)).length = ctx.n := by
    rw [List.length_map, List.length_range]
  have hvb1 : ∀ i, ((List.range ctx.n).map
      (fun i => modMul (v.getD i 0) (ctx.psi_powers i) ctx.q)).getD i 0 < ctx.q := by
    intro i
    by_cases hi : i < ctx.n
    · rw [getD_rangeMap hi]; exact modMul_lt (by omega)
    · rw [getD_of_len_le (by omega)]; omega
  have hbody : forwardV ctx v = stagesLoop ctx.q ctx.n ctx.omega ctx.n 2
      (bitReverseL ctx.n ((List.range ctx.n).map
        (fun i => modMul (v.getD i 0) (ctx.psi_powers i) ctx.q))) := rfl
  obtain ⟨hl, hb, hc⟩ := nttRaw_dft hq2 g.hn g.hk g.homega_lt g.homega_half
    ((List.range ctx.n).map (fun i => modMul (v.getD i 0) (ctx.psi_powers i) ctx.q))
    hvlen1 hvb1
  rw [hbody]
  refine ⟨hl, hb, ?_⟩
  intro t ht
  rw [hc t ht, phiZ, dftZ, dftZ]
  refine Finset.sum_congr rfl fun j hj => ?_
  have hjn : j < ctx.n := Finset.mem_range.mp hj
  rw [zv, getD_rangeMap hjn, cast_modMul]
  rfl

theorem inverseV_spec {ctx : NTTCtx} {k : Nat} (g : GoodCtx ctx k) (u : List Nat)
    (hulen : u.length = ctx.n) (hub : ∀ i, u.getD i 0 < ctx.q) :
    (inverseV ctx u).length = ctx.n ∧ (∀ i, (inverseV ctx u).getD i 0 < ctx.q) ∧
      ∀ i, i < ctx.n → (((inverseV ctx u).getD i 0 : Nat) : ZMod ctx.q) =
        ((ctx.psi_powers_inv i : ZMod ctx.q)) *
          (((ctx.n_inv : ZMod ctx.q)) *
            dftZ ctx.q ctx.n ((ctx.omega_inv : ZMod ctx.q)) (zv ctx.q u) i) := by
  have hq2 : 2 < ctx.q := g.hq2
  obtain ⟨hl, hb, hc⟩ := nttRaw_dft hq2 g.hn g.hk g.hoinv_lt (goodCtx_oinv_half g) u hulen hub
  have hbody : nttBody ctx true u =
      (stagesLoop ctx.q ctx.n ctx.omega_inv ctx.n 2 (bitReverseL ctx.n u)).map
        (fun a => modMul a ctx.n_inv ctx.q) := rfl
  have hlen1 : (nttBody ctx true u).length = ctx.n := by
    rw [hbody, List.length_map, hl]
  have hub1 : ∀ i, (nttBody ctx true u).getD i 0 < ctx.q := by
    intro i
    by_cases hi : i < ctx.n
    · rw [hbody, getD_map_lt (by rw [hl]; exact hi)]
      exact modMul_lt (by omega)
    · rw [getD_of_len_le (by omega)]; omega
  have hcast1 : ∀ i, i < ctx.n → (((nttBody ctx true u).getD i 0 : Nat) : ZMod ctx.q) =
      ((ctx.n_inv : ZMod ctx.q)) *
        dftZ ctx.q ctx.n ((ctx.omega_inv : ZMod ctx.q)) (zv ctx.q u) i := by
    intro i hi
    rw [hbody, getD_map_lt (by rw [hl]; exact hi), cast_modMul, hc i hi]
    ring
  have hiv : inverseV ctx u = (List.range ctx.n).map
      (fun i => modMul ((nttBody ctx true u).getD i 0) (ctx.psi_powers_inv i) ctx.q) := rfl
  refine ⟨?_, ?_, ?_⟩
  · rw [hiv, List.length_map, List.length_range]
  · intro i
    by_cases hi : i < ctx.n
    · rw [hiv, getD_rangeMap hi]; exact modMul_lt (by omega)
    · rw [hiv, getD_of_len_le (by rw [List.length_map, List.length_range]; omega)]; omega
  · intro i hi
    rw [hiv, getD_rangeMap hi, cast_modMul, hcast1 i hi]
    ring

theorem getElem_eq_getD {l : List Nat} {i : Nat} (h : i < l.length) :
    l[i] = l.getD i 0 := by
  rw [List.getD_eq_getElem?_getD, List.getElem?_eq_getElem h]
  rfl

theorem inverse_forward_id {ctx : NTTCtx} {k : Nat} (g : GoodCtx ctx k) (v : List Nat)
    (hvlen : v.length = ctx.n) (hvb : ∀ i, v.getD i 0 < ctx.q) :
    inverseV ctx (forwardV ctx v) = v := by
  obtain ⟨hfl, hfb, hfc⟩ := forwardV_spec g v hvlen hvb
  obtain ⟨hil, hib, hic⟩ := inverseV_spec g (forwardV ctx v) hfl hfb
  apply List.ext_getElem (by rw [hil, hvlen])
  intro i h1 h2
  rw [getElem_eq_getD h1, getElem_eq_getD h2]
  have hi : i < ctx.n := by rw [← hil]; exact h1
  refine @nat_eq_of_cast_eq ctx.q _ _ (by have := g.hq2; omega) (hib i) (hvb i) ?_
  rw [hic i hi]
  have hdfteq : dftZ ctx.q ctx.n ((ctx.omega_inv : ZMod ctx.q)) (zv ctx.q (forwardV ctx v)) i =
      dftZ ctx.q ctx.n ((ctx.omega_inv : ZMod ctx.q))
        (fun t => dftZ ctx.q ctx.n ((ctx.omega : ZMod ctx.q))
          (twZ ctx.q ctx.psi_powers (zv ctx.q v)) t) i := by
    refine Finset.sum_congr rfl fun j hj => ?_
    rw [zv, hfc j (Finset.mem_range.mp hj)]
    rfl
  rw [hdfteq]
  rw [dft_inversion g.hq2 g.hprime g.hk g.hn g.homega_half (goodCtx_omega_mul g)
    (goodCtx_n_mul g) (twZ ctx.q ctx.psi_powers (zv ctx.q v)) i hi]
  rw [twZ, zv]
  calc ((ctx.psi_powers_inv i : ZMod ctx.q)) *
        (((v.getD i 0 : Nat) : ZMod ctx.q) * ((ctx.psi_powers i : ZMod ctx.q)))
      = ((v.getD i 0 : Nat) : ZMod ctx.q) *
          (((ctx.psi_powers i : ZMod ctx.q)) * ((ctx.psi_powers_inv i : ZMod ctx.q))) := by
        ring
    _ = ((v.getD i 0 : Nat) : ZMod ctx.q) := by rw [goodCtx_tw_mul g, mul_one]

theorem tmod_lower {q : Nat} (hq : 0 < q) (x : Int) : -(q : Int) < x.tmod (q : Int) := by
  cases x with
  | ofNat m =>
    have h1 : (Int.ofNat m).tmod (Int.ofNat q) = Int.ofNat (m % q) := rfl
    rw [show ((q : Nat) : Int) = Int.ofNat q from rfl, h1]
    simp only [Int.ofNat_eq_natCast]
    omega
  | negSucc m =>
    have h1 : (Int.negSucc m).tmod (Int.ofNat q) = -Int.ofNat (m.succ % q) := rfl
    rw [show ((q : Nat) : Int) = Int.ofNat q from rfl, h1]
    simp only [Int.ofNat_eq_natCast]
    have h2 : m.succ % q < q := Nat.mod_lt _ hq
    omega

theorem cppIntMod_lt {q : Nat} (hq : 0 < q) (x : Int) : cppIntMod x q < q := by
  unfold cppIntMod
  dsimp only
  split
  · rename_i h
    omega
  · rename_i h
    have h2 : x.tmod (q : Int) < (q : Int) := Int.tmod_lt_of_pos x (by exact_mod_cast hq)
    omega

theorem cast_cppIntMod {q : Nat} (hq : 0 < q) (x : Int) :
    ((cppIntMod x q : Nat) : ZMod q) = (x : ZMod q) := by
  have hlow := tmod_lower hq x
  have hq0 : (((q : Nat) : Int) : ZMod q) = 0 := by
    push_cast
    exact ZMod.natCast_self q
  have hcong : ((x.tmod (q : Int) : Int) : ZMod q) = (x : ZMod q) := by
    rw [Int.tmod_def, Int.cast_sub, Int.cast_mul, hq0, zero_mul, sub_zero]
  unfold cppIntMod
  dsimp only
  split
  · rename_i h
    have hge : (0 : Int) ≤ x.tmod (q : Int) + q := by omega
    have h1 : (((x.tmod (q : Int) + (q : Int)).toNat : Nat) : ZMod q) =
        ((x.tmod (q : Int) + (q : Int) : Int) : ZMod q) := by
      conv_rhs => rw [← Int.toNat_of_nonneg hge]
      rw [Int.cast_natCast]
    rw [h1, Int.cast_add, hq0, add_zero, hcong]
  · rename_i h
    have hge : (0 : Int) ≤ x.tmod (q : Int) := by omega
    have h1 : (((x.tmod (q : Int)).toNat : Nat) : ZMod q) =
        ((x.tmod (q : Int) : Int) : ZMod q) := by
      conv_rhs => rw [← Int.toNat_of_nonneg hge]
      rw [Int.cast_natCast]
    rw [h1, hcong]

theorem int64OfUInt64_of_lt {c : Nat} (hc : c < 2 ^ 63) : int64OfUInt64 c = (c : Int) := by
  rw [int64OfUInt64, if_pos hc]

theorem cast_int64OfUInt64_small {q c : Nat} (hc : c < 2 ^ 63) :
    ((int64OfUInt64 c : Int) : ZMod q) = ((c : Nat) : ZMod q) := by
  rw [int64OfUInt64_of_lt hc]
  push_cast
  rfl

theorem canon_bound {p : Polynomial} {n q : Nat} (hq : 0 < q) (h : Canon p n q) :
    ∀ i, p.coeffs.getD i 0 < q := by
  intro i
  by_cases hi : i < n
  · exact h.2.2.2 i hi
  · rw [getD_of_len_le (by rw [h.2.2.1]; omega)]; omega

theorem phiZ_congr (ctx : NTTCtx) {x y : Nat → ZMod ctx.q}
    (h : ∀ j, j < ctx.n → x j = y j) : ∀ t, phiZ ctx x t = phiZ ctx y t := by
  intro t
  simp only [phiZ, dftZ, twZ]
  exact Finset.sum_congr rfl fun j hj => by rw [h j (Finset.mem_range.mp hj)]

theorem forward_inverse_phi {ctx : NTTCtx} {k : Nat} (g : GoodCtx ctx k)
    (u : List Nat) (hulen : u.length = ctx.n) (hub : ∀ i, u.getD i 0 < ctx.q) :
    ∀ t, t < ctx.n → phiZ ctx (zv ctx.q (inverseV ctx u)) t = zv ctx.q u t := by
  obtain ⟨hil, hib, hic⟩ := inverseV_spec g u hulen hub
  intro t ht
  have hstep : phiZ ctx (zv ctx.q (inverseV ctx u)) t =
      ((ctx.n_inv : ZMod ctx.q)) *
        dftZ ctx.q ctx.n ((ctx.omega : ZMod ctx.q))
          (fun j => dftZ ctx.q ctx.n ((ctx.omega_inv : ZMod ctx.q)) (zv ctx.q u) j) t := by
    rw [phiZ, dftZ, dftZ, Finset.mul_sum]
    refine Finset.sum_congr rfl fun j hj => ?_
    have hjn : j < ctx.n := Finset.mem_range.mp hj
    simp only [twZ, zv]
    rw [hic j hjn]
    calc ((ctx.psi_powers_inv j : ZMod ctx.q)) *
          (((ctx.n_inv : ZMod ctx.q)) *
            dftZ ctx.q ctx.n ((ctx.omega_inv : ZMod ctx.q)) (zv ctx.q u) j) *
          ((ctx.psi_powers j : ZMod ctx.q)) *
          ((ctx.omega : ZMod ctx.q)) ^ (j * t)
        = ((ctx.psi_powers j : ZMod ctx.q)) * ((ctx.psi_powers_inv j : ZMod ctx.q)) *
            (((ctx.n_inv : ZMod ctx.q)) *
              (dftZ ctx.q ctx.n ((ctx.omega_inv : ZMod ctx.q)) (zv ctx.q u) j *
                ((ctx.omega : ZMod ctx.q)) ^ (j * t))) := by ring
      _ = ((ctx.n_inv : ZMod ctx.q)) *
            (dftZ ctx.q ctx.n ((ctx.omega_inv : ZMod ctx.q)) (zv ctx.q u) j *
              ((ctx.omega : ZMod ctx.q)) ^ (j * t)) := by
          rw [goodCtx_tw_mul g, one_mul]
  rw [hstep]
  exact dft_inversion g.hq2 g.hprime g.hk g.hn (goodCtx_oinv_half g)
    (by rw [mul_comm]; exact goodCtx_omega_mul g) (goodCtx_n_mul g) (zv ctx.q u) t ht

theorem phi_inj {ctx : NTTCtx} {k : Nat} (g : GoodCtx ctx k) {a b : List Nat}
    (hal : a.length = ctx.n) (hbl : b.length = ctx.n)
    (hab : ∀ i, a.getD i 0 < ctx.q) (hbb : ∀ i, b.getD i 0 < ctx.q)
    (h : ∀ t, t < ctx.n → phiZ ctx (zv ctx.q a) t = phiZ ctx (zv ctx.q b) t) : a = b := by
  obtain ⟨hfal, hfab, hfac⟩ := forwardV_spec g a hal hab
  obtain ⟨hfbl, hfbb, hfbc⟩ := forwardV_spec g b hbl hbb
  have hfeq : forwardV ctx a = forwardV ctx b := by
    apply List.ext_getElem (by rw [hfal, hfbl])
    intro i h1 h2
    rw [getElem_eq_getD h1, getElem_eq_getD h2]
    have hi : i < ctx.n := by rw [← hfal]; exact h1
    refine @nat_eq_of_cast_eq ctx.q _ _ (by have := g.hq2; omega) (hfab i) (hfbb i) ?_
    rw [hfac i hi, hfbc i hi]
    exact h i hi
  rw [← inverse_forward_id g a hal hab, ← inverse_forward_id g b hbl hbb, hfeq]

theorem polyAdd_spec {n q : Nat} (hq : 0 < q) {p o : Polynomial}
    (hp : Canon p n q) (ho : Canon o n q) :
    ∃ r, polyAdd p o = some r ∧ Canon r n q ∧
      ∀ i, i < n → ((r.coeffs.getD i 0 : Nat) : ZMod q) =
        ((p.coeffs.getD i 0 : Nat) : ZMod q) + ((o.coeffs.getD i 0 : Nat) : ZMod q) := by
  obtain ⟨hpd, hpm, hpl, hpb⟩ := hp
  obtain ⟨hod, hom, hol, hob⟩ := ho
  refine ⟨_, by rw [polyAdd, if_pos ⟨by omega, by omega⟩], ⟨by simpa using hpd, by simpa using hpm, ?_, ?_⟩, ?_⟩
  · simp only [List.length_map, List.length_range]; omega
  · intro i hi
    rw [getD_rangeMap (by omega), hpm]
    exact Nat.mod_lt _ hq
  · intro i hi
    rw [getD_rangeMap (by omega), hpm, ZMod.natCast_mod]
    push_cast
    ring

theorem polySub_spec {n q : Nat} (hq : 0 < q) (hq63 : q ≤ 2 ^ 63) {p o : Polynomial}
    (hp : Canon p n q) (ho : Canon o n q) :
    ∃ r, polySub p o = some r ∧ Canon r n q ∧
      ∀ i, i < n → ((r.coeffs.getD i 0 : Nat) : ZMod q) =
        ((p.coeffs.getD i 0 : Nat) : ZMod q) - ((o.coeffs.getD i 0 : Nat) : ZMod q) := by
  obtain ⟨hpd, hpm, hpl, hpb⟩ := hp
  obtain ⟨hod, hom, hol, hob⟩ := ho
  refine ⟨_, by rw [polySub, if_pos ⟨by omega, by omega⟩], ⟨by simpa using hpd, by simpa using hpm, ?_, ?_⟩, ?_⟩
  · simp only [List.length_map, List.length_range]; omega
  · intro i hi
    rw [getD_rangeMap (by omega)]
    rw [hpm]
    exact cppIntMod_lt hq _
  · intro i hi
    rw [getD_rangeMap (by omega), hpm, cast_cppIntMod hq]
    rw [Int.cast_sub, cast_int64OfUInt64_small (by have := hpb i hi; omega),
      cast_int64OfUInt64_small (by have := hob i hi; omega)]

theorem mkNTT_fields {n q : Nat} {b : Bool} {ctx : NTTCtx}
    (h : mkNTT n q b = some ctx) : ctx.n = n ∧ ctx.q = q := by
  unfold mkNTT at h
  repeat' split at h
  all_goals first
  | exact Option.noConfusion h
  | (cases h; exact ⟨rfl, rfl⟩)

theorem polyMul_spec {n q : Nat} {ctx : NTTCtx} {k : Nat} (g : GoodCtx ctx k)
    (hq63 : q ≤ 2 ^ 63)
    {p o : Polynomial} (hp : Canon p n q) (ho : Canon o n q)
    (hctx : mkNTT n q true = some ctx) :
    ∃ r, polyMul p o = some r ∧ Canon r n q ∧
      ∀ t, t < n → phiZ ctx (zv ctx.q r.coeffs) t =
        phiZ ctx (zv ctx.q p.coeffs) t * phiZ ctx (zv ctx.q o.coeffs) t := by
  obtain ⟨hcn, hcq⟩ := mkNTT_fields hctx
  subst hcn
  subst hcq
  obtain ⟨hpd, hpm, hpl, hpb⟩ := hp
  obtain ⟨hod, hom, hol, hob⟩ := ho
  have hq0 : 0 < ctx.q := by have := g.hq2; omega
  obtain ⟨hfpl, hfpb, hfpc⟩ := forwardV_spec g p.coeffs (by rw [hpl])
    (canon_bound hq0 ⟨hpd, hpm, hpl, hpb⟩)
  obtain ⟨hfol, hfob, hfoc⟩ := forwardV_spec g o.coeffs (by rw [hol])
    (canon_bound hq0 ⟨hod, hom, hol, hob⟩)
  have hul : ((List.range ctx.n).map
      (fun i => (forwardV ctx p.coeffs).getD i 0 *
        (forwardV ctx o.coeffs).getD i 0 % ctx.q)).length = ctx.n := by
    rw [List.length_map, List.length_range]
  have hub : ∀ i, ((List.range ctx.n).map
      (fun i => (forwardV ctx p.coeffs).getD i 0 *
        (forwardV ctx o.coeffs).getD i 0 % ctx.q)).getD i 0 < ctx.q := by
    intro i
    by_cases hi : i < ctx.n
    · rw [getD_rangeMap hi]; exact Nat.mod_lt _ hq0
    · rw [getD_of_len_le (by omega)]; omega
  obtain ⟨hil, hib, hic⟩ := inverseV_spec g _ hul hub
  have hmul : polyMul p o = some ⟨(List.range ctx.n).map (fun i =>
      cppIntMod (int64OfUInt64 ((inverseV ctx ((List.range ctx.n).map
        (fun i => (forwardV ctx p.coeffs).getD i 0 *
          (forwardV ctx o.coeffs).getD i 0 % ctx.q))).getD i 0)) ctx.q),
      ctx.n, ctx.q⟩ := by
    rw [polyMul, if_pos ⟨by omega, by omega⟩, hpd, hpm, hctx]
    rfl
  refine ⟨_, hmul, ⟨rfl, rfl, ?_, ?_⟩, ?_⟩
  · rw [List.length_map, List.length_range]
  · intro i hi
    rw [getD_rangeMap hi]
    exact cppIntMod_lt hq0 _
  · intro t ht
    have hcoeff : ∀ j, j < ctx.n →
        zv ctx.q ((List.range ctx.n).map (fun i =>
          cppIntMod (int64OfUInt64 ((inverseV ctx ((List.range ctx.n).map
            (fun i => (forwardV ctx p.coeffs).getD i 0 *
              (forwardV ctx o.coeffs).getD i 0 % ctx.q))).getD i 0)) ctx.q)) j =
        zv ctx.q (inverseV ctx ((List.range ctx.n).map
          (fun i => (forwardV ctx p.coeffs).getD i 0 *
            (forwardV ctx o.coeffs).getD i 0 % ctx.q))) j := by
      intro j hj
      simp only [zv]
      rw [getD_rangeMap hj, cast_cppIntMod hq0,
        cast_int64OfUInt64_small (by have := hib j; omega)]
    rw [phiZ_congr ctx hcoeff t,
      forward_inverse_phi g _ hul hub t ht]
    simp only [zv]
    rw [getD_rangeMap ht, ZMod.natCast_mod]
    push_cast
    rw [hfpc t ht, hfoc t ht]

theorem cast_pred_eq_neg_one {q : Nat} (hq : 2 ≤ q) : ((q - 1 : Nat) : ZMod q) = -1 := by
  have h1 : ((q - 1 : Nat) : ZMod q) = ((q : Nat) : ZMod q) - 1 := by
    rw [Nat.cast_sub (by omega : 1 ≤ q), Nat.cast_one]
  rw [h1, ZMod.natCast_self, zero_sub]

theorem modPow_mul_mod_one {q a b : Nat} (hq : 2 ≤ q) (hab : a * b % q = 1) (e : Nat) :
    (modPow a e q * modPow b e q) % q = 1 := by
  refine @nat_eq_of_cast_eq q _ _ (by omega) (Nat.mod_lt _ (by omega)) (by omega) ?_
  have hcast : ((a : ZMod q)) * ((b : ZMod q)) = 1 := by
    have h := congrArg (fun x : Nat => (x : ZMod q)) hab
    simp only [ZMod.natCast_mod] at h
    push_cast at h
    exact h
  rw [ZMod.natCast_mod]
  push_cast
  rw [cast_modPow, cast_modPow, ← mul_pow, hcast, one_pow]

set_option maxRecDepth 4000000

theorem mkNTT_pair8 : mkNTT 8 7681 true =
    some ⟨8, 7681, 1213, 1925, 6721, fun i => modPow 7154 (2 * i + 1) 7681,
          fun i => modPow 7098 (2 * i + 1) 7681⟩ := by
  rfl

theorem goodCtx8 : GoodCtx ⟨8, 7681, 1213, 1925, 6721,
    fun i => modPow 7154 (2 * i + 1) 7681, fun i => modPow 7098 (2 * i + 1) 7681⟩ 3 := by
  refine ⟨rfl, by norm_num, by norm_num, by norm_num, by norm_num, by norm_num, by norm_num,
    ?_, by decide, by decide, fun i => @modPow_lt 7681 (by norm_num) _ _,
    fun i => @modPow_lt 7681 (by norm_num) _ _,
    fun i => modPow_mul_mod_one (by norm_num) (by decide) _⟩
  show ((1213 : Nat) : ZMod 7681) ^ 2 ^ (3 - 1) = -1
  rw [← @cast_modPow 7681 1213 (2 ^ (3 - 1)),
    show modPow 1213 (2 ^ (3 - 1)) 7681 = 7680 from by decide]
  exact @cast_pred_eq_neg_one 7681 (by norm_num)

theorem mkNTT_pair32 : mkNTT 32 7681 true =
    some ⟨32, 7681, 6315, 5235, 7441, fun i => modPow 2645 (2 * i + 1) 7681,
          fun i => modPow 5413 (2 * i + 1) 7681⟩ := by
  rfl

theorem goodCtx32 : GoodCtx ⟨32, 7681, 6315, 5235, 7441,
    fun i => modPow 2645 (2 * i + 1) 7681, fun i => modPow 5413 (2 * i + 1) 7681⟩ 5 := by
  refine ⟨rfl, by norm_num, by norm_num, by norm_num, by norm_num, by norm_num, by norm_num,
    ?_, by decide, by decide, fun i => @modPow_lt 7681 (by norm_num) _ _,
    fun i => @modPow_lt 7681 (by norm_num) _ _,
    fun i => modPow_mul_mod_one (by norm_num) (by decide) _⟩
  show ((6315 : Nat) : ZMod 7681) ^ 2 ^ (5 - 1) = -1
  rw [← @cast_modPow 7681 6315 (2 ^ (5 - 1)),
    show modPow 6315 (2 ^ (5 - 1)) 7681 = 7680 from by decide]
  exact @cast_pred_eq_neg_one 7681 (by norm_num)

theorem mkNTT_pair256 : mkNTT 256 7681 true =
    some ⟨256, 7681, 5685, 5653, 7651, fun i => modPow 4055 (2 * i + 1) 7681,
          fun i => modPow 2811 (2 * i + 1) 7681⟩ := by
  rfl

theorem goodCtx256 : GoodCtx ⟨256, 7681, 5685, 5653, 7651,
    fun i => modPow 4055 (2 * i + 1) 7681, fun i => modPow 2811 (2 * i + 1) 7681⟩ 8 := by
  refine ⟨rfl, by norm_num, by norm_num, by norm_num, by norm_num, by norm_num, by norm_num,
    ?_, by decide, by decide, fun i => @modPow_lt 7681 (by norm_num) _ _,
    fun i => @modPow_lt 7681 (by norm_num) _ _,
    fun i => modPow_mul_mod_one (by norm_num) (by decide) _⟩
  show ((5685 : Nat) : ZMod 7681) ^ 2 ^ (8 - 1) = -1
  rw [← @cast_modPow 7681 5685 (2 ^ (8 - 1)),
    show modPow 5685 (2 ^ (8 - 1)) 7681 = 7680 from by decide]
  exact @cast_pred_eq_neg_one 7681 (by norm_num)

theorem mkNTT_pair512 : mkNTT 512 12289 true =
    some ⟨512, 12289, 3400, 2859, 12265, fun i => modPow 10302 (2 * i + 1) 12289,
          fun i => modPow 8974 (2 * i + 1) 12289⟩ := by
  rfl

theorem goodCtx512 : GoodCtx ⟨512, 12289, 3400, 2859, 12265,
    fun i => modPow 10302 (2 * i + 1) 12289, fun i => modPow 8974 (2 * i + 1) 12289⟩ 9 := by
  refine ⟨rfl, by norm_num, by norm_num, by norm_num, by norm_num, by norm_num, by norm_num,
    ?_, by decide, by decide, fun i => @modPow_lt 12289 (by norm_num) _ _,
    fun i => @modPow_lt 12289 (by norm_num) _ _,
    fun i => modPow_mul_mod_one (by norm_num) (by decide) _⟩
  show ((3400 : Nat) : ZMod 12289) ^ 2 ^ (9 - 1) = -1
  rw [← @cast_modPow 12289 3400 (2 ^ (9 - 1)),
    show modPow 3400 (2 ^ (9 - 1)) 12289 = 12288 from by decide]
  exact @cast_pred_eq_neg_one 12289 (by norm_num)

theorem mkNTT_pair1024 : mkNTT 1024 18433 true =
    some ⟨1024, 18433, 7673, 3935, 18415, fun i => modPow 17660 (2 * i + 1) 18433,
          fun i => modPow 18123 (2 * i + 1) 18433⟩ := by
  rfl

theorem goodCtx1024 : GoodCtx ⟨1024, 18433, 7673, 3935, 18415,
    fun i => modPow 17660 (2 * i + 1) 18433, fun i => modPow 18123 (2 * i + 1) 18433⟩ 10 := by
  refine ⟨rfl, by norm_num, by norm_num, by norm_num, by norm_num, by norm_num, by norm_num,
    ?_, by decide, by decide, fun i => @modPow_lt 18433 (by norm_num) _ _,
    fun i => @modPow_lt 18433 (by norm_num) _ _,
    fun i => modPow_mul_mod_one (by norm_num) (by decide) _⟩
  show ((7673 : Nat) : ZMod 18433) ^ 2 ^ (10 - 1) = -1
  rw [← @cast_modPow 18433 7673 (2 ^ (10 - 1)),
    show modPow 7673 (2 ^ (10 - 1)) 18433 = 18432 from by decide]
  exact @cast_pred_eq_neg_one 18433 (by norm_num)

theorem supported_goodCtx : ∀ n q : Nat, supportedPair n q →
    ∀ ctx, mkNTT n q true = some ctx → ∃ k, GoodCtx ctx k := by
  intro n q hsup ctx hctx
  by_cases h1 : n = 8 ∧ q = 7681
  · obtain ⟨rfl, rfl⟩ := h1
    rw [mkNTT_pair8] at hctx
    cases hctx
    exact ⟨3, goodCtx8⟩
  by_cases h2 : n = 32 ∧ q = 7681
  · obtain ⟨rfl, rfl⟩ := h2
    rw [mkNTT_pair32] at hctx
    cases hctx
    exact ⟨5, goodCtx32⟩
  by_cases h3 : n = 256 ∧ q = 7681
  · obtain ⟨rfl, rfl⟩ := h3
    rw [mkNTT_pair256] at hctx
    cases hctx
    exact ⟨8, goodCtx256⟩
  by_cases h4 : n = 512 ∧ q = 12289
  · obtain ⟨rfl, rfl⟩ := h4
    rw [mkNTT_pair512] at hctx
    cases hctx
    exact ⟨9, goodCtx512⟩
  by_cases h5 : n = 1024 ∧ q = 18433
  · obtain ⟨rfl, rfl⟩ := h5
    rw [mkNTT_pair1024] at hctx
    cases hctx
    exact ⟨10, goodCtx1024⟩
  exfalso
  unfold supportedPair getPsiTables at hsup
  rw [if_neg h1, if_neg h2, if_neg h3, if_neg h4, if_neg h5] at hsup
  exact Bool.noConfusion hsup

/-- C1: the parameter catalog baked into getParameterSet diverges from the
spec's section 4.7 table: KYBER512 carries q = 3329 and sigma = 8/5 instead
of the spec's 7681 and 3, HIGH carries q = 16384 instead of 18433, and
neither (256, 3329) nor (1024, 16384) is a PsiTables-supported pair (16384
is not even congruent to 1 modulo 2n), so polynomial multiplication throws
for signers built from these levels. -/
theorem C1_catalog_diverges :
    getParameterSet SecurityLevel.KYBER512 =
      ⟨256, 3329, 8 / 5, "KYBER512 (NIST Standard)", 128, 64, true⟩ ∧
    (getParameterSet SecurityLevel.KYBER512).q ≠ 7681 ∧
    (getParameterSet SecurityLevel.KYBER512).sigma ≠ 3 ∧
    getParameterSet SecurityLevel.HIGH = ⟨1024, 16384, 16 / 5, "HIGH", 256, 128, true⟩ ∧
    (getParameterSet SecurityLevel.HIGH).q ≠ 18433 ∧
    ¬ supportedPair (getParameterSet SecurityLevel.KYBER512).n
        (getParameterSet SecurityLevel.KYBER512).q ∧
    ¬ supportedPair (getParameterSet SecurityLevel.HIGH).n
        (getParameterSet SecurityLevel.HIGH).q ∧
    ((getParameterSet SecurityLevel.HIGH).q - 1) %
        (2 * (getParameterSet SecurityLevel.HIGH).n) ≠ 0 := by
  refine ⟨rfl, by decide, ?_, rfl, by decide, by unfold supportedPair; decide,
    by unfold supportedPair; decide, by decide⟩
  show (8 / 5 : ℚ) ≠ 3
  norm_num

/-- C9: the explicit constructor RLWESignature(n, q, sigma) validates only
that n is a power of two; the congruence q ≡ 1 (mod 2n) demanded by the
spec is never checked at construction (it only surfaces later when the NTT
is built), so construction succeeds for q that violate it. -/
theorem C9_amended : ∀ (n q : Nat) (sigma : ℚ),
    (mkRLWE n q sigma).isSome = true ↔ validatePowerOfTwo n = true := by
  intro n q sigma
  by_cases h : validatePowerOfTwo n = true
  · rw [mkRLWE, if_pos h]
    simp [h]
  · rw [mkRLWE, if_neg h]
    simp [h]

/-- C9 counterexample: constructing a signer with n = 8 and q = 10 succeeds
even though 10 is not congruent to 1 modulo 2n = 16, contradicting the
spec's requirement that such construction fail with a parameter error. -/
theorem C9_counterexample :
    (mkRLWE 8 10 3).isSome = true ∧ (10 - 1) % (2 * 8) ≠ 0 := by decide

/-- C10: getParameters always reports the name "Custom" and recomputes the
advisory fields from the ring dimension alone: is_secure holds exactly when
n is at least 256, the bit estimates are the n-driven piecewise values, and
the record returned for a catalog-constructed signer differs from the
catalog record of its level (shown for KYBER512). -/
theorem C10_getParameters (st : SigState) :
    (getParameters st).name = "Custom" ∧
    (getParameters st).n = st.ring_dim_n ∧
    (getParameters st).q = st.modulus ∧
    (getParameters st).sigma = st.gaussian_stddev ∧
    ((getParameters st).is_secure = true ↔ 256 ≤ st.ring_dim_n) ∧
    (getParameters st).classical_bits =
      (if st.ring_dim_n < 128 then ((st.ring_dim_n / 2 : Nat) : Int)
       else if st.ring_dim_n < 256 then 80 else ((3 * st.ring_dim_n / 5 : Nat) : Int)) ∧
    (getParameters st).quantum_bits =
      (if st.ring_dim_n < 128 then ((st.ring_dim_n / 4 : Nat) : Int)
       else if st.ring_dim_n < 256 then 40 else ((3 * st.ring_dim_n / 10 : Nat) : Int)) ∧
    (mkRLWEFromLevel SecurityLevel.KYBER512).map (fun st2 => (getParameters st2).name) ≠
      some (getParameterSet SecurityLevel.KYBER512).name := by
  simp only [getParameters]
  split_ifs with h1 h2
  · exact ⟨rfl, rfl, rfl, rfl, by simp; omega, rfl, rfl, by decide⟩
  · exact ⟨rfl, rfl, rfl, rfl, by simp; omega, rfl, rfl, by decide⟩
  · exact ⟨rfl, rfl, rfl, rfl, by simp [decide_eq_true_iff], rfl, rfl, by decide⟩

/-- C8: polySignal maps each stored coefficient x in [0, q) to the nearer
of the two anchors 0 and q / 2 under the cyclic distance on Z_q, with ties
broken toward 0, and every output coefficient is either 0 or q / 2. -/
theorem C8_polySignal (p : Polynomial) (i : Nat) (hi : i < p.ring_dim)
    (hx : p.coeffs.getD i 0 < p.modulus) :
    (polySignal p).coeffs.getD i 0 =
      (if cycDist p.modulus (p.coeffs.getD i 0) 0 ≤
          cycDist p.modulus (p.coeffs.getD i 0) (p.modulus / 2)
       then 0 else p.modulus / 2) ∧
    ((polySignal p).coeffs.getD i 0 = 0 ∨ (polySignal p).coeffs.getD i 0 = p.modulus / 2) := by
  simp only [polySignal, cycDist]
  rw [getD_rangeMap hi]
  constructor
  · split_ifs <;> omega
  · split_ifs <;> simp

/-- C8 witness: the claim instantiated at the polynomial with coefficient
vector [5] over q = 17; coefficient 5 is nearer to q / 2 = 8 than to 0. -/
theorem C8_polySignal_witness :
    0 < (Polynomial.ofVec [5] 17).ring_dim ∧
    (Polynomial.ofVec [5] 17).coeffs.getD 0 0 < (Polynomial.ofVec [5] 17).modulus ∧
    ((polySignal (Polynomial.ofVec [5] 17)).coeffs.getD 0 0 =
      (if cycDist (Polynomial.ofVec [5] 17).modulus
          ((Polynomial.ofVec [5] 17).coeffs.getD 0 0) 0 ≤
          cycDist (Polynomial.ofVec [5] 17).modulus
            ((Polynomial.ofVec [5] 17).coeffs.getD 0 0)
            ((Polynomial.ofVec [5] 17).modulus / 2)
       then 0 else (Polynomial.ofVec [5] 17).modulus / 2) ∧
    ((polySignal (Polynomial.ofVec [5] 17)).coeffs.getD 0 0 = 0 ∨
      (polySignal (Polynomial.ofVec [5] 17)).coeffs.getD 0 0 =
        (Polynomial.ofVec [5] 17).modulus / 2)) :=
  ⟨by decide, by decide, C8_polySignal (Polynomial.ofVec [5] 17) 0 (by decide) (by decide)⟩

/-- C7 counterexample: the vector constructor stores coefficients as given
with no modular reduction, so Polynomial([17], 17) holds the out-of-range
coefficient 17 and is not canonical. -/
theorem C7_counterexample :
    (Polynomial.ofVec [17] 17).coeffs.getD 0 0 = 17 ∧
    ¬ ((Polynomial.ofVec [17] 17).coeffs.getD 0 0 < (Polynomial.ofVec [17] 17).modulus) ∧
    ¬ Canon (Polynomial.ofVec [17] 17) 1 17 := by
  refine ⟨rfl, by decide, ?_⟩
  intro h
  exact absurd (h.2.2.2 0 (by decide)) (by decide)

/-- C7: with the correction that the vector constructor does not reduce
(reduction happens in setCoefficients), the canonical-range invariant is
preserved by the public operations: setCoefficients always reduces into
[0, q), and addition, subtraction, negation, scalar multiplication,
polySignal and NTT multiplication keep canonical inputs canonical. -/
theorem C7_amended (n q : Nat) (hq : 0 < q) (p o : Polynomial)
    (hp : Canon p n q) (ho : Canon o n q) :
    (∀ cs r, Polynomial.setCoefficients p cs = some r → Canon r n q) ∧
    (∀ r, polyAdd p o = some r → Canon r n q) ∧
    (∀ r, polySub p o = some r → Canon r n q) ∧
    Canon (polyNeg p) n q ∧
    (∀ s, Canon (polyScalar p s) n q) ∧
    Canon (polySignal p) n q ∧
    (∀ r, polyMul p o = some r → Canon r n q) := by
  obtain ⟨hpd, hpm, hpl, hpb⟩ := hp
  obtain ⟨hod, hom, hol, hob⟩ := ho
  refine ⟨?_, ?_, ?_, ?_, ?_, ?_, ?_⟩
  · intro cs r h
    rw [Polynomial.setCoefficients] at h
    split at h
    · exact Option.noConfusion h
    · rename_i hlen
      cases h
      refine ⟨hpd, hpm, ?_, ?_⟩
      · rw [List.length_map]; omega
      · intro i hi
        rw [getD_map_lt (by omega), hpm]
        exact cppIntMod_lt hq _
  · intro r h
    rw [polyAdd, if_pos ⟨by omega, by omega⟩] at h
    cases h
    refine ⟨hpd, hpm, by rw [List.length_map, List.length_range]; omega, ?_⟩
    intro i hi
    rw [getD_rangeMap (by omega), hpm]
    exact Nat.mod_lt _ hq
  · intro r h
    rw [polySub, if_pos ⟨by omega, by omega⟩] at h
    cases h
    refine ⟨hpd, hpm, by rw [List.length_map, List.length_range]; omega, ?_⟩
    intro i hi
    rw [getD_rangeMap (by omega), hpm]
    exact cppIntMod_lt hq _
  · refine ⟨hpd, hpm, by rw [polyNeg, List.length_map, List.length_range]; omega, ?_⟩
    intro i hi
    rw [polyNeg, getD_rangeMap (by omega), hpm]
    dsimp only
    split
    · omega
    · rename_i hc
      have := hpb i (by omega)
      omega
  · intro s
    refine ⟨hpd, hpm, by rw [polyScalar, List.length_map, List.length_range]; omega, ?_⟩
    intro i hi
    rw [polyScalar, getD_rangeMap (by omega), hpm]
    exact Nat.mod_lt _ hq
  · refine ⟨hpd, hpm, by simp only [polySignal]; rw [List.length_map, List.length_range]; omega, ?_⟩
    intro i hi
    simp only [polySignal]
    rw [getD_rangeMap (by omega), hpm]
    split_ifs <;> omega
  · intro r h
    rw [polyMul, if_pos ⟨by omega, by omega⟩] at h
    rw [Option.map_eq_some'] at h
    obtain ⟨ctx, hctx, hr⟩ := h
    cases hr
    refine ⟨hpd, hpm, by rw [List.length_map, List.length_range]; omega, ?_⟩
    intro i hi
    rw [getD_rangeMap (by omega), hpm]
    exact cppIntMod_lt hq _

/-- C7 witness: the amended invariant applied to concrete canonical
polynomials over q = 17: negation of a canonical polynomial is canonical. -/
theorem C7_amended_witness :
    0 < 17 ∧ Canon (Polynomial.ofVec [4, 16] 17) 2 17 ∧
    Canon (Polynomial.ofVec [5, 9] 17) 2 17 ∧
    Canon (polyNeg (Polynomial.ofVec [4, 16] 17)) 2 17 :=
  ⟨by decide, by unfold Canon; decide, by unfold Canon; decide,
    (C7_amended 2 17 (by decide) (Polynomial.ofVec [4, 16] 17) (Polynomial.ofVec [5, 9] 17)
      (by unfold Canon; decide) (by unfold Canon; decide)).2.2.2.1⟩

/-- C5: for every supported (n, q) pair and the NTT context the constructor
returns for it, forward followed by inverse is the identity on length-n
coefficient vectors with entries in [0, q). -/
theorem C5_roundtrip (n q : Nat) (hsup : supportedPair n q) (ctx : NTTCtx)
    (hctx : mkNTT n q true = some ctx) (a : List Nat) (hlen : a.length = n)
    (hb : ∀ i, i < n → a.getD i 0 < q) :
    inverseV ctx (forwardV ctx a) = a := by
  obtain ⟨k, g⟩ := supported_goodCtx n q hsup ctx hctx
  obtain ⟨hcn, hcq⟩ := mkNTT_fields hctx
  refine inverse_forward_id g a (by rw [hlen, hcn]) ?_
  intro i
  by_cases hi : i < n
  · rw [hcq]
    exact hb i hi
  · rw [getD_of_len_le (by omega)]
    have h2 := g.hq2
    omega

/-- C5 witness: the roundtrip at the supported pair (8, 7681) on the
vector [1, 2, 3, 4, 5, 6, 7, 8]. -/
theorem C5_roundtrip_witness :
    supportedPair 8 7681 ∧
    mkNTT 8 7681 true = some ⟨8, 7681, 1213, 1925, 6721,
      fun i => modPow 7154 (2 * i + 1) 7681, fun i => modPow 7098 (2 * i + 1) 7681⟩ ∧
    ([1, 2, 3, 4, 5, 6, 7, 8] : List Nat).length = 8 ∧
    (∀ i, i < 8 → ([1, 2, 3, 4, 5, 6, 7, 8] : List Nat).getD i 0 < 7681) ∧
    inverseV ⟨8, 7681, 1213, 1925, 6721,
        fun i => modPow 7154 (2 * i + 1) 7681, fun i => modPow 7098 (2 * i + 1) 7681⟩
      (forwardV ⟨8, 7681, 1213, 1925, 6721,
        fun i => modPow 7154 (2 * i + 1) 7681, fun i => modPow 7098 (2 * i + 1) 7681⟩
        [1, 2, 3, 4, 5, 6, 7, 8]) = [1, 2, 3, 4, 5, 6, 7, 8] :=
  ⟨by unfold supportedPair; decide, by rfl, by decide, by decide,
    C5_roundtrip 8 7681 (by unfold supportedPair; decide) _ (by rfl) _ (by decide) (by decide)⟩

/-- C4: at the supported pair (8, 7681) the NTT-based product of x and x^7
is the constant polynomial 7154, while the schoolbook 2n-1-term convolution
reduced modulo x^8 + 1 and q gives the correct constant q - 1 = 7680; the
two multipliers disagree on this input, refuting the claimed coefficientwise
agreement (the baked twist tables use psi^(2i+1) where the negacyclic twist
needs psi^i, so the pipeline computes a psi-scaled cyclic convolution). -/
theorem C4_ntt_schoolbook_diverge :
    polyMul (Polynomial.ofVec [0, 1, 0, 0, 0, 0, 0, 0] 7681)
        (Polynomial.ofVec [0, 0, 0, 0, 0, 0, 0, 1] 7681) =
      some ⟨[7154, 0, 0, 0, 0, 0, 0, 0], 8, 7681⟩ ∧
    schoolbookMul (Polynomial.ofVec [0, 1, 0, 0, 0, 0, 0, 0] 7681)
        (Polynomial.ofVec [0, 0, 0, 0, 0, 0, 0, 1] 7681) =
      some ⟨[7680, 0, 0, 0, 0, 0, 0, 0], 8, 7681⟩ ∧
    polyMul (Polynomial.ofVec [0, 1, 0, 0, 0, 0, 0, 0] 7681)
        (Polynomial.ofVec [0, 0, 0, 0, 0, 0, 0, 1] 7681) ≠
      schoolbookMul (Polynomial.ofVec [0, 1, 0, 0, 0, 0, 0, 0] 7681)
        (Polynomial.ofVec [0, 0, 0, 0, 0, 0, 0, 1] 7681) ∧
    supportedPair 8 7681 :=
  ⟨by decide, by decide, by decide, by unfold supportedPair; decide⟩

theorem verify_spec (st : SigState) (message : List Nat) (signature expected : Polynomial)
    (h : polyMul st.s (hashToPolynomial st.ring_dim_n st.modulus message) = some expected) :
    verify st message signature =
      some ((List.range (polySignal signature).coeffs.length).all
        (fun i => (polySignal signature).coeffs.getD i 0 ==
          (polySignal expected).coeffs.getD i 0)) ∧
    (verify st message signature = some true ↔
      ∀ i, i < (polySignal signature).coeffs.length →
        (polySignal signature).coeffs.getD i 0 = (polySignal expected).coeffs.getD i 0) := by
  have h1 : verify st message signature =
      some ((List.range (polySignal signature).coeffs.length).all
        (fun i => (polySignal signature).coeffs.getD i 0 ==
          (polySignal expected).coeffs.getD i 0)) := by
    simp only [verify]
    rw [h]
    rfl
  refine ⟨h1, ?_⟩
  rw [h1, Option.some.injEq]
  simp only [List.all_eq_true, List.mem_range, beq_iff_eq]

/-- C2: verify hashes the message, multiplies by the stored secret, and
returns exactly the boolean that compares the two polySignal vectors index
by index; in particular it returns true iff the signals agree at every
index, and a mismatch yields some false rather than an error. -/
theorem C2_verify (st : SigState) (message : List Nat) (signature expected : Polynomial)
    (h : polyMul st.s (hashToPolynomial st.ring_dim_n st.modulus message) = some expected) :
    verify st message signature =
      some ((List.range (polySignal signature).coeffs.length).all
        (fun i => (polySignal signature).coeffs.getD i 0 ==
          (polySignal expected).coeffs.getD i 0)) ∧
    (verify st message signature = some true ↔
      ∀ i, i < (polySignal signature).coeffs.length →
        (polySignal signature).coeffs.getD i 0 = (polySignal expected).coeffs.getD i 0) :=
  verify_spec st message signature expected h

/-- C2 witness: verification at (8, 7681) with secret 1 and message [42];
the product of the secret with the hash target is the stated concrete
polynomial and verify accepts a signature equal to it. -/
theorem C2_verify_witness :
    polyMul (Polynomial.ofVec [1, 0, 0, 0, 0, 0, 0, 0] 7681)
        (hashToPolynomial 8 7681 [42]) =
      some ⟨[4104, 4104, 0, 0, 4104, 0, 0, 4104], 8, 7681⟩ ∧
    (verify ⟨8, 7681, 3, Polynomial.zero 8 7681, Polynomial.zero 8 7681,
        Polynomial.ofVec [1, 0, 0, 0, 0, 0, 0, 0] 7681⟩ [42]
        (⟨[4104, 4104, 0, 0, 4104, 0, 0, 4104], 8, 7681⟩ : Polynomial) =
      some ((List.range (polySignal
          (⟨[4104, 4104, 0, 0, 4104, 0, 0, 4104], 8, 7681⟩ : Polynomial)).coeffs.length).all
        (fun i => (polySignal
            (⟨[4104, 4104, 0, 0, 4104, 0, 0, 4104], 8, 7681⟩ : Polynomial)).coeffs.getD i 0 ==
          (polySignal
            (⟨[4104, 4104, 0, 0, 4104, 0, 0, 4104], 8, 7681⟩ : Polynomial)).coeffs.getD i 0)) ∧
    (verify ⟨8, 7681, 3, Polynomial.zero 8 7681, Polynomial.zero 8 7681,
        Polynomial.ofVec [1, 0, 0, 0, 0, 0, 0, 0] 7681⟩ [42]
        (⟨[4104, 4104, 0, 0, 4104, 0, 0, 4104], 8, 7681⟩ : Polynomial) = some true ↔
      ∀ i, i < (polySignal
          (⟨[4104, 4104, 0, 0, 4104, 0, 0, 4104], 8, 7681⟩ : Polynomial)).coeffs.length →
        (polySignal
          (⟨[4104, 4104, 0, 0, 4104, 0, 0, 4104], 8, 7681⟩ : Polynomial)).coeffs.getD i 0 =
        (polySignal
          (⟨[4104, 4104, 0, 0, 4104, 0, 0, 4104], 8, 7681⟩ : Polynomial)).coeffs.getD i 0)) :=
  ⟨by decide,
    C2_verify ⟨8, 7681, 3, Polynomial.zero 8 7681, Polynomial.zero 8 7681,
        Polynomial.ofVec [1, 0, 0, 0, 0, 0, 0, 0] 7681⟩ [42]
      (⟨[4104, 4104, 0, 0, 4104, 0, 0, 4104], 8, 7681⟩ : Polynomial)
      (⟨[4104, 4104, 0, 0, 4104, 0, 0, 4104], 8, 7681⟩ : Polynomial) (by decide)⟩

/-- C6 counterexample: an honest run at (8, 7681) with secret s =
[3272, 0, ..., 0], message [42], e1 = [100, ..., 100] and r = e = 0.  The
unblinded signature is s·Y + e1 − r·e as computed by the code, every
residual noise coefficient is 100 (so 4·|100| < q, i.e. |residual| < q/4),
yet verify rejects: the spec's q/4 bound does not characterise acceptance,
because s·Y has coefficients 1900 that polySignal rounds to 0 while
1900 + 100 = 2000 rounds to q/2. -/
theorem C6_counterexample :
    polyMul (Polynomial.ofVec [3272, 0, 0, 0, 0, 0, 0, 0] 7681)
        (hashToPolynomial 8 7681 [42]) =
      some ⟨[1900, 1900, 0, 0, 1900, 0, 0, 1900], 8, 7681⟩ ∧
    polyMul (Polynomial.zero 8 7681) (Polynomial.zero 8 7681) =
      some ⟨[0, 0, 0, 0, 0, 0, 0, 0], 8, 7681⟩ ∧
    polyAdd ⟨[1900, 1900, 0, 0, 1900, 0, 0, 1900], 8, 7681⟩
        (Polynomial.ofVec [100, 100, 100, 100, 100, 100, 100, 100] 7681) =
      some ⟨[2000, 2000, 100, 100, 2000, 100, 100, 2000], 8, 7681⟩ ∧
    polySub ⟨[2000, 2000, 100, 100, 2000, 100, 100, 2000], 8, 7681⟩
        ⟨[0, 0, 0, 0, 0, 0, 0, 0], 8, 7681⟩ =
      some ⟨[2000, 2000, 100, 100, 2000, 100, 100, 2000], 8, 7681⟩ ∧
    polySub (Polynomial.ofVec [100, 100, 100, 100, 100, 100, 100, 100] 7681)
        ⟨[0, 0, 0, 0, 0, 0, 0, 0], 8, 7681⟩ =
      some ⟨[100, 100, 100, 100, 100, 100, 100, 100], 8, 7681⟩ ∧
    ((⟨[100, 100, 100, 100, 100, 100, 100, 100], 8, 7681⟩ : Polynomial).coeffs.all
      (fun c => 4 * centeredAbs 7681 c < 7681)) = true ∧
    verify ⟨8, 7681, 3, Polynomial.zero 8 7681, Polynomial.zero 8 7681,
        Polynomial.ofVec [3272, 0, 0, 0, 0, 0, 0, 0] 7681⟩ [42]
      ⟨[2000, 2000, 100, 100, 2000, 100, 100, 2000], 8, 7681⟩ = some false :=
  ⟨by decide, by decide, by decide, by decide, by decide, by decide, by decide⟩

/-- C6: amended correctness condition for an honest run: verify accepts the
unblinded signature sig = s·Y + e1 − r·e (all operations as computed by the
code) if and only if the polySignal rounding of sig agrees with that of s·Y
at every index; the q/4 noise bound of the spec is neither necessary nor
sufficient for this. -/
theorem C6_amended (st : SigState) (message : List Nat)
    (e1 r e sY t1 rE sig : Polynomial)
    (hmul : polyMul st.s (hashToPolynomial st.ring_dim_n st.modulus message) = some sY)
    (h1 : polyAdd sY e1 = some t1)
    (h2 : polyMul r e = some rE)
    (h3 : polySub t1 rE = some sig) :
    verify st message sig = some true ↔
      ∀ i, i < (polySignal sig).coeffs.length →
        (polySignal sig).coeffs.getD i 0 = (polySignal sY).coeffs.getD i 0 :=
  (verify_spec st message sig sY hmul).2

/-- C6 witness: the amended acceptance condition instantiated on the
concrete honest run of the counterexample (where both sides of the
equivalence are false). -/
theorem C6_amended_witness :
    polyMul (⟨8, 7681, 3, Polynomial.zero 8 7681, Polynomial.zero 8 7681,
        Polynomial.ofVec [3272, 0, 0, 0, 0, 0, 0, 0] 7681⟩ : SigState).s
        (hashToPolynomial 8 7681 [42]) =
      some ⟨[1900, 1900, 0, 0, 1900, 0, 0, 1900], 8, 7681⟩ ∧
    polyAdd ⟨[1900, 1900, 0, 0, 1900, 0, 0, 1900], 8, 7681⟩
        (Polynomial.ofVec [100, 100, 100, 100, 100, 100, 100, 100] 7681) =
      some ⟨[2000, 2000, 100, 100, 2000, 100, 100, 2000], 8, 7681⟩ ∧
    polyMul (Polynomial.zero 8 7681) (Polynomial.zero 8 7681) =
      some ⟨[0, 0, 0, 0, 0, 0, 0, 0], 8, 7681⟩ ∧
    polySub ⟨[2000, 2000, 100, 100, 2000, 100, 100, 2000], 8, 7681⟩
        ⟨[0, 0, 0, 0, 0, 0, 0, 0], 8, 7681⟩ =
      some ⟨[2000, 2000, 100, 100, 2000, 100, 100, 2000], 8, 7681⟩ ∧
    (verify ⟨8, 7681, 3, Polynomial.zero 8 7681, Polynomial.zero 8 7681,
        Polynomial.ofVec [3272, 0, 0, 0, 0, 0, 0, 0] 7681⟩ [42]
        (⟨[2000, 2000, 100, 100, 2000, 100, 100, 2000], 8, 7681⟩ : Polynomial) = some true ↔
      ∀ i, i < (polySignal
          (⟨[2000, 2000, 100, 100, 2000, 100, 100, 2000], 8, 7681⟩ : Polynomial)).coeffs.length →
        (polySignal
          (⟨[2000, 2000, 100, 100, 2000, 100, 100, 2000], 8, 7681⟩ : Polynomial)).coeffs.getD i 0 =
        (polySignal
          (⟨[1900, 1900, 0, 0, 1900, 0, 0, 1900], 8, 7681⟩ : Polynomial)).coeffs.getD i 0) :=
  ⟨by decide, by decide, by decide, by decide,
    C6_amended ⟨8, 7681, 3, Polynomial.zero 8 7681, Polynomial.zero 8 7681,
        Polynomial.ofVec [3272, 0, 0, 0, 0, 0, 0, 0] 7681⟩ [42]
      (Polynomial.ofVec [100, 100, 100, 100, 100, 100, 100, 100] 7681)
      (Polynomial.zero 8 7681) (Polynomial.zero 8 7681)
      ⟨[1900, 1900, 0, 0, 1900, 0, 0, 1900], 8, 7681⟩
      ⟨[2000, 2000, 100, 100, 2000, 100, 100, 2000], 8, 7681⟩
      ⟨[0, 0, 0, 0, 0, 0, 0, 0], 8, 7681⟩
      ⟨[2000, 2000, 100, 100, 2000, 100, 100, 2000], 8, 7681⟩
      (by decide) (by decide) (by decide) (by decide)⟩

theorem phiZ_add (ctx : NTTCtx) (x y : Nat → ZMod ctx.q) (t : Nat) :
    phiZ ctx (fun j => x j + y j) t = phiZ ctx x t + phiZ ctx y t := by
  simp only [phiZ, dftZ, twZ]
  rw [← Finset.sum_add_distrib]
  exact Finset.sum_congr rfl fun j hj => by ring

theorem phiZ_sub (ctx : NTTCtx) (x y : Nat → ZMod ctx.q) (t : Nat) :
    phiZ ctx (fun j => x j - y j) t = phiZ ctx x t - phiZ ctx y t := by
  simp only [phiZ, dftZ, twZ]
  rw [← Finset.sum_sub_distrib]
  exact Finset.sum_congr rfl fun j hj => by ring

theorem phi_of_add {ctx : NTTCtx} {p o r : List Nat}
    (h : ∀ i, i < ctx.n → ((r.getD i 0 : Nat) : ZMod ctx.q) =
      ((p.getD i 0 : Nat) : ZMod ctx.q) + ((o.getD i 0 : Nat) : ZMod ctx.q)) (t : Nat) :
    phiZ ctx (zv ctx.q r) t = phiZ ctx (zv ctx.q p) t + phiZ ctx (zv ctx.q o) t := by
  rw [@phiZ_congr ctx (zv ctx.q r) (fun j => zv ctx.q p j + zv ctx.q o j)
    (fun j hj => h j hj) t]
  exact phiZ_add ctx (zv ctx.q p) (zv ctx.q o) t

theorem phi_of_sub {ctx : NTTCtx} {p o r : List Nat}
    (h : ∀ i, i < ctx.n → ((r.getD i 0 : Nat) : ZMod ctx.q) =
      ((p.getD i 0 : Nat) : ZMod ctx.q) - ((o.getD i 0 : Nat) : ZMod ctx.q)) (t : Nat) :
    phiZ ctx (zv ctx.q r) t = phiZ ctx (zv ctx.q p) t - phiZ ctx (zv ctx.q o) t := by
  rw [@phiZ_congr ctx (zv ctx.q r) (fun j => zv ctx.q p j - zv ctx.q o j)
    (fun j hj => h j hj) t]
  exact phiZ_sub ctx (zv ctx.q p) (zv ctx.q o) t

theorem poly_eq_of_canon {z r : Polynomial} {n q : Nat} (hz : Canon z n q) (hr : Canon r n q)
    (hc : z.coeffs = r.coeffs) : z = r := by
  obtain ⟨h1, h2, _, _⟩ := hz
  obtain ⟨h3, h4, _, _⟩ := hr
  cases z
  cases r
  simp only at h1 h2 h3 h4 hc
  simp only [Polynomial.mk.injEq]
  exact ⟨hc, by omega, by omega⟩

theorem mkNTT_supported {n q : Nat} {b : Bool} {ctx : NTTCtx}
    (h : mkNTT n q b = some ctx) : supportedPair n q := by
  cases hg : getPsiTables n q with
  | none =>
    exfalso
    unfold mkNTT at h
    split at h
    · exact Option.noConfusion h
    split at h
    · exact Option.noConfusion h
    split at h
    · exact Option.noConfusion h
    split at h
    · exact Option.noConfusion h
    rw [hg] at h
    exact Option.noConfusion h
  | some tbl =>
    unfold supportedPair
    rw [hg]
    rfl

theorem supported_q63 {n q : Nat} (h : supportedPair n q) : q ≤ 2 ^ 63 := by
  unfold supportedPair getPsiTables at h
  by_cases h1 : n = 8 ∧ q = 7681
  · obtain ⟨_, rfl⟩ := h1; norm_num
  rw [if_neg h1] at h
  by_cases h2 : n = 32 ∧ q = 7681
  · obtain ⟨_, rfl⟩ := h2; norm_num
  rw [if_neg h2] at h
  by_cases h3 : n = 256 ∧ q = 7681
  · obtain ⟨_, rfl⟩ := h3; norm_num
  rw [if_neg h3] at h
  by_cases h4 : n = 512 ∧ q = 12289
  · obtain ⟨_, rfl⟩ := h4; norm_num
  rw [if_neg h4] at h
  by_cases h5 : n = 1024 ∧ q = 18433
  · obtain ⟨_, rfl⟩ := h5; norm_num
  rw [if_neg h5] at h
  exact Bool.noConfusion h

/-- C3: computeSignature returns C − r·A; consequently, for a blind
signature C = s·(Y + a·r) + e1 and public key A = a·s + e (all operations
as computed by the code over a supported ring), the unblinded result equals
s·Y + e1 − r·e.  The identity survives even though the NTT product realises
a psi-twisted cyclic rather than negacyclic convolution, because the
realised product is injectively and multiplicatively tracked by the Phi
transform, under which it is the pointwise product. -/
theorem C3_unblinding {n q : Nat} {ctx : NTTCtx}
    (hctx : mkNTT n q true = some ctx)
    {s Y a r e e1 : Polynomial}
    (hs : Canon s n q) (hY : Canon Y n q) (ha : Canon a n q)
    (hr : Canon r n q) (he : Canon e n q) (he1 : Canon e1 n q)
    {ar Yar sYar C as2 A sY sYe1 rE rhs : Polynomial}
    (h1 : polyMul a r = some ar)
    (h2 : polyAdd Y ar = some Yar)
    (h3 : polyMul s Yar = some sYar)
    (h4 : polyAdd sYar e1 = some C)
    (h5 : polyMul a s = some as2)
    (h6 : polyAdd as2 e = some A)
    (h7 : polyMul s Y = some sY)
    (h8 : polyAdd sY e1 = some sYe1)
    (h9 : polyMul r e = some rE)
    (h10 : polySub sYe1 rE = some rhs) :
    computeSignature C r A = some rhs := by
  have hsup := mkNTT_supported hctx
  obtain ⟨k, g⟩ := supported_goodCtx n q hsup ctx hctx
  have hq63 : q ≤ 2 ^ 63 := supported_q63 hsup
  obtain ⟨hcn, hcq⟩ := mkNTT_fields hctx
  subst hcn
  subst hcq
  have hq0 : 0 < ctx.q := by have := g.hq2; omega
  obtain ⟨ar', he_ar, hc_ar, hphi_ar⟩ := polyMul_spec g hq63 ha hr hctx
  obtain rfl := Option.some.inj (he_ar.symm.trans h1)
  obtain ⟨Yar', he_Yar, hc_Yar, hcast_Yar⟩ := polyAdd_spec hq0 hY hc_ar
  obtain rfl := Option.some.inj (he_Yar.symm.trans h2)
  obtain ⟨sYar', he_sYar, hc_sYar, hphi_sYar⟩ := polyMul_spec g hq63 hs hc_Yar hctx
  obtain rfl := Option.some.inj (he_sYar.symm.trans h3)
  obtain ⟨C', he_C, hc_C, hcast_C⟩ := polyAdd_spec hq0 hc_sYar he1
  obtain rfl := Option.some.inj (he_C.symm.trans h4)
  obtain ⟨as2', he_as2, hc_as2, hphi_as2⟩ := polyMul_spec g hq63 ha hs hctx
  obtain rfl := Option.some.inj (he_as2.symm.trans h5)
  obtain ⟨A', he_A, hc_A, hcast_A⟩ := polyAdd_spec hq0 hc_as2 he
  obtain rfl := Option.some.inj (he_A.symm.trans h6)
  obtain ⟨sY', he_sY, hc_sY, hphi_sY⟩ := polyMul_spec g hq63 hs hY hctx
  obtain rfl := Option.some.inj (he_sY.symm.trans h7)
  obtain ⟨sYe1', he_sYe1, hc_sYe1, hcast_sYe1⟩ := polyAdd_spec hq0 hc_sY he1
  obtain rfl := Option.some.inj (he_sYe1.symm.trans h8)
  obtain ⟨rE', he_rE, hc_rE, hphi_rE⟩ := polyMul_spec g hq63 hr he hctx
  obtain rfl := Option.some.inj (he_rE.symm.trans h9)
  obtain ⟨rhs', he_rhs, hc_rhs, hcast_rhs⟩ := polySub_spec hq0 hq63 hc_sYe1 hc_rE
  obtain rfl := Option.some.inj (he_rhs.symm.trans h10)
  obtain ⟨rA, he_rA, hc_rA, hphi_rA⟩ := polyMul_spec g hq63 hr hc_A hctx
  obtain ⟨z, he_z, hc_z, hcast_z⟩ := polySub_spec hq0 hq63 hc_C hc_rA
  rw [computeSignature, he_rA]
  show polySub C' rA = some rhs'
  rw [he_z]
  congr 1
  refine poly_eq_of_canon hc_z hc_rhs ?_
  refine phi_inj g hc_z.2.2.1 hc_rhs.2.2.1 (canon_bound hq0 hc_z) (canon_bound hq0 hc_rhs) ?_
  intro t ht
  have eC := phi_of_add hcast_C t
  have eYar := phi_of_add hcast_Yar t
  have e_ar := hphi_ar t ht
  have e_sYar := hphi_sYar t ht
  have e_as2 := hphi_as2 t ht
  have eA := phi_of_add hcast_A t
  have e_sY := hphi_sY t ht
  have e_sYe1 := phi_of_add hcast_sYe1 t
  have e_rE := hphi_rE t ht
  have e_rhs := phi_of_sub hcast_rhs t
  have e_rA := hphi_rA t ht
  have e_z := phi_of_sub hcast_z t
  rw [e_z, e_rhs, eC, e_sYar, eYar, e_ar, e_rA, eA, e_as2, e_sYe1, e_sY, e_rE]
  ring

/-- C3 witness: the unblinding identity instantiated on the all-zero
polynomials over the supported ring (8, 7681). -/
theorem C3_unblinding_witness :
    mkNTT 8 7681 true = some ⟨8, 7681, 1213, 1925, 6721, fun i => modPow 7154 (2 * i + 1) 7681, fun i => modPow 7098 (2 * i + 1) 7681⟩ ∧
    Canon (Polynomial.zero 8 7681) 8 7681 ∧
    polyMul (Polynomial.zero 8 7681) (Polynomial.zero 8 7681) = some (⟨[0, 0, 0, 0, 0, 0, 0, 0], 8, 7681⟩ : Polynomial) ∧
    polyAdd (Polynomial.zero 8 7681) (⟨[0, 0, 0, 0, 0, 0, 0, 0], 8, 7681⟩ : Polynomial) = some (⟨[0, 0, 0, 0, 0, 0, 0, 0], 8, 7681⟩ : Polynomial) ∧
    polyMul (Polynomial.zero 8 7681) (⟨[0, 0, 0, 0, 0, 0, 0, 0], 8, 7681⟩ : Polynomial) = some (⟨[0, 0, 0, 0, 0, 0, 0, 0], 8, 7681⟩ : Polynomial) ∧
    polyAdd (⟨[0, 0, 0, 0, 0, 0, 0, 0], 8, 7681⟩ : Polynomial) (Polynomial.zero 8 7681) = some (⟨[0, 0, 0, 0, 0, 0, 0, 0], 8, 7681⟩ : Polynomial) ∧
    polySub (⟨[0, 0, 0, 0, 0, 0, 0, 0], 8, 7681⟩ : Polynomial) (⟨[0, 0, 0, 0, 0, 0, 0, 0], 8, 7681⟩ : Polynomial) = some (⟨[0, 0, 0, 0, 0, 0, 0, 0], 8, 7681⟩ : Polynomial) ∧
    computeSignature (⟨[0, 0, 0, 0, 0, 0, 0, 0], 8, 7681⟩ : Polynomial) (Polynomial.zero 8 7681) (⟨[0, 0, 0, 0, 0, 0, 0, 0], 8, 7681⟩ : Polynomial) = some (⟨[0, 0, 0, 0, 0, 0, 0, 0], 8, 7681⟩ : Polynomial) :=
  ⟨by rfl, by unfold Canon; decide, by decide, by decide, by decide, by decide, by decide,
    @C3_unblinding 8 7681 ⟨8, 7681, 1213, 1925, 6721, fun i => modPow 7154 (2 * i + 1) 7681, fun i => modPow 7098 (2 * i + 1) 7681⟩ (by rfl)
      (Polynomial.zero 8 7681) (Polynomial.zero 8 7681) (Polynomial.zero 8 7681) (Polynomial.zero 8 7681) (Polynomial.zero 8 7681) (Polynomial.zero 8 7681)
      (by unfold Canon; decide) (by unfold Canon; decide) (by unfold Canon; decide)
      (by unfold Canon; decide) (by unfold Canon; decide) (by unfold Canon; decide)
      (⟨[0, 0, 0, 0, 0, 0, 0, 0], 8, 7681⟩ : Polynomial) (⟨[0, 0, 0, 0, 0, 0, 0, 0], 8, 7681⟩ : Polynomial) (⟨[0, 0, 0, 0, 0, 0, 0, 0], 8, 7681⟩ : Polynomial) (⟨[0, 0, 0, 0, 0, 0, 0, 0], 8, 7681⟩ : Polynomial) (⟨[0, 0, 0, 0, 0, 0, 0, 0], 8, 7681⟩ : Polynomial) (⟨[0, 0, 0, 0, 0, 0, 0, 0], 8, 7681⟩ : Polynomial) (⟨[0, 0, 0, 0, 0, 0, 0, 0], 8, 7681⟩ : Polynomial) (⟨[0, 0, 0, 0, 0, 0, 0, 0], 8, 7681⟩ : Polynomial) (⟨[0, 0, 0, 0, 0, 0, 0, 0], 8, 7681⟩ : Polynomial) (⟨[0, 0, 0, 0, 0, 0, 0, 0], 8, 7681⟩ : Polynomial)
      (by decide) (by decide) (by decide) (by decide) (by decide) (by decide) (by decide)
      (by decide) (by decide) (by decide)⟩

end RLWE
